import Mathlib

/-!
# Verification of the quantitative level-mapping pipeline

This file is a shallow embedding, in Lean 4, of the analytical core of the
level-mapping program: ATR volatility estimation (`src/analysis/atr.rs`),
zig-zag swing detection (`src/analysis/swings.rs`), price clustering
(`src/analysis/clustering.rs`), density-peak detection
(`src/analysis/peaks.rs`), level construction (`src/analysis/levels.rs`),
EVT tail extrapolation (`src/analysis/evt.rs`), level backtesting
(`src/analysis/stats.rs`), and the adaptive parameter search and regime
combination in `src/main.rs`.

Modelling conventions:
- `f64` values are embedded as `ℚ`.  All inputs reaching the embedded code
  are finite, so the source's `is_finite` guards are always true and the
  corresponding branches are noted in comments where they occur.
  Transcendental operations (`ln`, `powf`), which `ℚ` cannot express, are
  passed in as explicit function parameters where the source uses them.
- Rust's stable `sort_by`/`sort_by_key` is embedded as a stable insertion
  sort over a boolean comparator `le a b` meaning "a may stay before b",
  i.e. `compare(a,b) != Greater`.  Stable sorts over a total preorder
  comparator are extensionally equal, so this is a faithful model.
- `Vec::dedup_by` (drop an element equivalent to the previously retained
  one) is embedded as `dedupRun`.
- Fallible functions (`bail!`) are embedded with `Option` (`none` = error).
-/

/-- Rust `f64::clamp(lo, hi)`. -/
def rclamp (x lo hi : ℚ) : ℚ := min (max x lo) hi

/-- Stable insertion of `a` into `l`; `a` is placed before the first
element `b` with `le a b` (so after any run of elements equivalent to
`a`, matching stable-sort semantics). -/
def insertOrd (le : α → α → Bool) (a : α) : List α → List α
  | [] => [a]
  | b :: l => if le a b then a :: b :: l else b :: insertOrd le a l

/-- Stable insertion sort over a boolean comparator; the embedding of
Rust's stable `sort_by`. -/
def sortOrd (le : α → α → Bool) : List α → List α
  | [] => []
  | a :: l => insertOrd le a (sortOrd le l)

/-- Embedding of Rust `Vec::dedup_by(same)`: keep the first element of
each run of `same`-equivalent elements (`same a b` receives the current
element `a` and the previously retained element `b`). -/
def dedupRun (same : α → α → Bool) : List α → List α
  | [] => []
  | [a] => [a]
  | a :: b :: l =>
    if same b a then dedupRun same (a :: l) else a :: dedupRun same (b :: l)
termination_by l => l.length

/-- OHLCV bar (`src/data.rs`).  The timestamp is carried for completeness
but none of the embedded operations read it. -/
structure Bar where
  timestamp : ℤ
  open_p : ℚ
  high : ℚ
  low : ℚ
  close : ℚ
  volume : ℚ
deriving DecidableEq, Repr

/-- Swing pivot type (`src/data.rs`). -/
inductive SwingType where
  | High
  | Low
deriving DecidableEq, Repr

/-- Extracted price swing with context (`src/data.rs`). -/
structure SwingPoint where
  index : ℕ
  bar : Bar
  price : ℚ
  swing_type : SwingType
  atr : ℚ
deriving DecidableEq, Repr

/-- Cluster of similar swing prices (`src/data.rs`). -/
structure PriceCluster where
  id : ℕ
  representative_price : ℚ
  total_volume : ℚ
  swing_count : ℕ
deriving DecidableEq, Repr

/-- A sampled point of the density curve (`src/data.rs`). -/
structure DensityPoint where
  price : ℚ
  density : ℚ
deriving DecidableEq, Repr

/-- Result of the density estimation (`src/analysis/density.rs`). -/
structure DensityAnalysis where
  grid : List DensityPoint
  bandwidths : List ℚ
  max_density : ℚ
deriving DecidableEq, Repr

/-- A density local maximum with its prominence (`src/analysis/peaks.rs`). -/
structure DensityPeak where
  price : ℚ
  density : ℚ
  prominence : ℚ
deriving DecidableEq, Repr

/-- Level side relative to the current price (`src/data.rs`). -/
inductive LevelType where
  | Support
  | Resistance
deriving DecidableEq, Repr

/-- Backtest statistics of one level (`src/data.rs`). -/
structure PerformanceStats where
  touches : ℕ
  tests : ℕ
  hit_rate : ℚ
  avg_reaction : ℚ
  max_favorable_excursion : ℚ
  avg_reaction_bars : ℚ
deriving DecidableEq, Repr

/-- `PerformanceStats::empty()` (`src/data.rs`). -/
def PerformanceStats.empty : PerformanceStats :=
  { touches := 0, tests := 0, hit_rate := 0, avg_reaction := 0
    max_favorable_excursion := 0, avg_reaction_bars := 0 }

/-- A discovered support/resistance level (`src/data.rs`). -/
structure Level where
  price : ℚ
  density : ℚ
  confidence : ℚ
  confidence_band : ℚ
  level_type : LevelType
  performance : PerformanceStats
  distance_from_last : ℚ
deriving DecidableEq, Repr

/-!
## Volatility estimator (`src/analysis/atr.rs`)
-/

/-- Per-bar true ranges after the first bar (`prev` is the previous bar);
each pushed value is `tr.max(0.0)` as in the source. -/
def trueRangesFrom (prev : Bar) : List Bar → List ℚ
  | [] => []
  | b :: rest =>
    max (max (b.high - b.low) (max |b.high - prev.close| |b.low - prev.close|)) 0
      :: trueRangesFrom b rest

/-- The true-range series: first bar uses `high - low` only. -/
def trueRanges : List Bar → List ℚ
  | [] => []
  | b :: rest => max (b.high - b.low) 0 :: trueRangesFrom b rest

/-- Wilder recursion `atr[i] = (atr[i-1]*(period-1) + tr[i]) / period`
applied along the remaining true ranges. -/
def wilderFrom (period : ℕ) (prev : ℚ) : List ℚ → List ℚ
  | [] => []
  | tr :: rest =>
    let next := (prev * ((period : ℚ) - 1) + tr) / (period : ℚ)
    next :: wilderFrom period next rest

/-- `compute_atr` (`src/analysis/atr.rs`).  The source builds a zero
vector, sets index `period-1` to the seed, runs the Wilder recursion for
indices `period..len`, and back-fills `0..period-2` with the seed; the
resulting series is `seed` at indices `0..period-1` followed by the
recursion, which is what this functional rendering produces. -/
def compute_atr (bars : List Bar) (period : ℕ) : List ℚ :=
  if bars.length = 0 ∨ period = 0 then []
  else
    let trs := trueRanges bars
    if trs.length < period then
      List.replicate bars.length (trs.sum / (trs.length : ℚ))
    else
      let initial := (trs.take period).sum / (period : ℚ)
      List.replicate period initial ++ wilderFrom period initial (trs.drop period)

/-!
## Swing detector (`src/analysis/swings.rs`)
-/

/-- Mutable scan state of `detect_swings`.  `lastType` is an `Option`
exactly as in the source (it is initialised to `some Low` and the `none`
arm of the match behaves like the `Low` arm). -/
structure SwingState where
  swings : List SwingPoint
  lastType : Option SwingType
  lastIndex : ℕ
  lastPrice : ℚ
  candHighPrice : ℚ
  candHighIdx : ℕ
  candLowPrice : ℚ
  candLowIdx : ℕ
deriving Repr

/-- `push_swing` (`src/analysis/swings.rs`): append unless the last
retained swing already has the same `(index, type)`. -/
def pushSwing (swings : List SwingPoint) (s : SwingPoint) : List SwingPoint :=
  match swings.getLast? with
  | some last =>
    if last.index = s.index ∧ last.swing_type = s.swing_type then swings
    else swings ++ [s]
  | none => swings ++ [s]

/-- One iteration of the `for idx in 1..bars.len()` loop of
`detect_swings`. -/
def swingStep (bars : List Bar) (atr : List ℚ) (atr_multiplier min_swing_distance initialAtr : ℚ)
    (st : SwingState) (idx : ℕ) : SwingState :=
  match bars.get? idx with
  | none => st
  | some bar =>
    let atrVal := (atr.get? idx).getD initialAtr
    let threshold := max (max |atrVal * atr_multiplier| min_swing_distance) (1 / 1000000)
    let chp := if st.candHighPrice ≤ bar.high then bar.high else st.candHighPrice
    let chi := if st.candHighPrice ≤ bar.high then idx else st.candHighIdx
    let clp := if bar.low ≤ st.candLowPrice then bar.low else st.candLowPrice
    let cli := if bar.low ≤ st.candLowPrice then idx else st.candLowIdx
    match st.lastType with
    | some SwingType.High =>
      if threshold ≤ st.lastPrice - clp ∧ st.lastIndex < cli then
        let pivotBar := (bars.get? cli).getD bar
        { swings := pushSwing st.swings
            { index := cli, bar := pivotBar, price := pivotBar.low
              swing_type := SwingType.Low, atr := (atr.get? cli).getD atrVal }
          lastType := some SwingType.Low
          lastIndex := cli
          lastPrice := pivotBar.low
          candHighPrice := pivotBar.high
          candHighIdx := cli
          candLowPrice := clp
          candLowIdx := cli }
      else
        { st with candHighPrice := chp, candHighIdx := chi
                  candLowPrice := clp, candLowIdx := cli }
    | _ =>
      -- `Some(Low) | None` arm of the source match.
      if threshold ≤ chp - st.lastPrice ∧ st.lastIndex < chi then
        let pivotBar := (bars.get? chi).getD bar
        { swings := pushSwing st.swings
            { index := chi, bar := pivotBar, price := pivotBar.high
              swing_type := SwingType.High, atr := (atr.get? chi).getD atrVal }
          lastType := some SwingType.High
          lastIndex := chi
          lastPrice := pivotBar.high
          candHighPrice := chp
          candHighIdx := chi
          candLowPrice := pivotBar.low
          candLowIdx := chi }
      else
        { st with candHighPrice := chp, candHighIdx := chi
                  candLowPrice := clp, candLowIdx := cli }

/-- `detect_swings` (`src/analysis/swings.rs`). -/
def detect_swings (bars : List Bar) (atr : List ℚ)
    (atr_multiplier min_swing_distance : ℚ) : List SwingPoint :=
  match bars with
  | [] => []
  | b0 :: _ =>
    let initialAtr := (atr.get? 0).getD 0
    let init : SwingState :=
      { swings := [{ index := 0, bar := b0, price := b0.low
                     swing_type := SwingType.Low, atr := initialAtr }]
        lastType := some SwingType.Low
        lastIndex := 0
        lastPrice := b0.low
        candHighPrice := b0.high
        candHighIdx := 0
        candLowPrice := b0.low
        candLowIdx := 0 }
    let final := (List.range' 1 (bars.length - 1)).foldl
      (swingStep bars atr atr_multiplier min_swing_distance initialAtr) init
    dedupRun (fun a b => decide (a.index = b.index ∧ a.swing_type = b.swing_type))
      (sortOrd (fun a b => decide (a.index ≤ b.index)) final.swings)

/-!
## Clusterer (`src/analysis/clustering.rs`)
-/

/-- Result of `cluster_swings`. -/
structure ClusterResult where
  clusters : List PriceCluster
  inliers : List SwingPoint
deriving DecidableEq, Repr

/-- `median` (`src/analysis/clustering.rs`): middle of the sorted values,
averaging the two middle values for even lengths. -/
def medianQ (values : List ℚ) : Option ℚ :=
  match values with
  | [] => none
  | _ =>
    let sorted := sortOrd (fun a b => decide (a ≤ b)) values
    let mid := sorted.length / 2
    if sorted.length % 2 = 0 then
      some ((1 / 2 : ℚ) * (sorted.getD (mid - 1) 0 + sorted.getD mid 0))
    else
      some (sorted.getD mid 0)

/-- `auto_dbscan_epsilon` (`src/analysis/clustering.rs`).  The source's
`median.is_finite && median > 0.0` test degenerates to `0 < median` over
`ℚ`. -/
def auto_dbscan_epsilon (swings : List SwingPoint) : ℚ :=
  if swings.length < 2 then 0
  else
    let prices := sortOrd (fun a b => decide (a ≤ b)) (swings.map (·.price))
    let diffs := (prices.zip prices.tail).map (fun w => |w.2 - w.1|)
    let med := (medianQ diffs).getD 0
    if 0 < med then med
    else
      let price_scale := max |(prices.getLast?).getD 1| 1
      (1 / 1000 : ℚ) * price_scale

/-- `maybe_emit_cluster` (`src/analysis/clustering.rs`). -/
def maybe_emit (min_points : ℕ) (clusters : List PriceCluster)
    (inliers buffer : List SwingPoint) : List PriceCluster × List SwingPoint :=
  if buffer.length < min_points then (clusters, inliers)
  else
    let total_volume := (buffer.map (·.bar.volume)).sum
    let representative_price :=
      if 0 < total_volume then
        (buffer.map (fun s => s.price * s.bar.volume)).sum / total_volume
      else
        (buffer.map (·.price)).sum / (buffer.length : ℚ)
    (clusters ++ [{ id := clusters.length, representative_price := representative_price
                    total_volume := total_volume, swing_count := buffer.length }],
     inliers ++ buffer)

/-- The main loop of `cluster_swings` over the price-sorted swings,
carried with the accumulated clusters, inliers and current buffer. -/
def clusterScan (epsilon : ℚ) (min_points : ℕ) :
    List SwingPoint → List PriceCluster → List SwingPoint → List SwingPoint →
    List PriceCluster × List SwingPoint
  | [], clusters, inliers, buffer => maybe_emit min_points clusters inliers buffer
  | s :: rest, clusters, inliers, buffer =>
    match buffer.getLast? with
    | none => clusterScan epsilon min_points rest clusters inliers [s]
    | some last =>
      if |s.price - last.price| ≤ epsilon then
        clusterScan epsilon min_points rest clusters inliers (buffer ++ [s])
      else
        let emitted := maybe_emit min_points clusters inliers buffer
        clusterScan epsilon min_points rest emitted.1 emitted.2 [s]

/-- `cluster_swings` (`src/analysis/clustering.rs`).  The source
enumerates swings into `(original index, swing)` pairs before the stable
price sort and then never reads the index again; the embedding sorts the
swings directly, which is the same stable sort.  `epsilon.is_finite` is
always true over `ℚ`. -/
def cluster_swings (swings : List SwingPoint) (epsilon : ℚ) (min_points : ℕ) :
    ClusterResult :=
  match swings with
  | [] => { clusters := [], inliers := [] }
  | _ =>
    if epsilon ≤ 0 then { clusters := [], inliers := [] }
    else
      let sorted := sortOrd (fun a b => decide (a.price ≤ b.price)) swings
      let out := clusterScan epsilon min_points sorted [] [] []
      { clusters := out.1, inliers := out.2 }

/-!
## Peak detector (`src/analysis/peaks.rs`)
-/

/-- The interior-point scan of `detect_peaks`: each window
`prev, curr, next` of three consecutive grid points contributes a peak
when `curr.density` strictly exceeds both neighbours. -/
def peakScan : List DensityPoint → List DensityPeak
  | p :: c :: n :: rest =>
    (if c.density ≤ p.density ∨ c.density ≤ n.density then []
     else
       let left_base := min p.density c.density
       let right_base := min n.density c.density
       [{ price := c.price, density := c.density
          prominence := c.density - min left_base right_base }])
      ++ peakScan (c :: n :: rest)
  | _ => []
termination_by l => l.length

/-- `detect_peaks` (`src/analysis/peaks.rs`). -/
def detect_peaks (density : DensityAnalysis) : List DensityPeak :=
  if density.grid.length < 3 then []
  else
    sortOrd (fun a b => decide (b.prominence ≤ a.prominence)) (peakScan density.grid)

/-!
## Level builder (`src/analysis/levels.rs`)
-/

/-- `build_levels` (`src/analysis/levels.rs`). -/
def build_levels (peaks : List DensityPeak) (max_density current_price mean_atr
    confidence_band_multiplier : ℚ) (max_levels : ℕ) : List Level :=
  match peaks with
  | [] => []
  | _ =>
    let max_prominence := max ((peaks.map (·.prominence)).foldl max 0) (1 / 1000000000)
    let levels := peaks.map (fun peak =>
      let density_score :=
        if 0 < max_density then rclamp (peak.density / max_density) 0 1 else 0
      let prominence_score := rclamp (peak.prominence / max_prominence) 0 1
      let confidence := (6 / 10 : ℚ) * density_score + (4 / 10 : ℚ) * prominence_score
      let base_band := mean_atr * confidence_band_multiplier
      let confidence_band :=
        if 0 < base_band then base_band else max (|peak.price| * (1 / 1000)) (1 / 4)
      let level_type :=
        if current_price ≤ peak.price then LevelType.Resistance else LevelType.Support
      { price := peak.price, density := peak.density, confidence := confidence
        confidence_band := confidence_band, level_type := level_type
        performance := PerformanceStats.empty
        distance_from_last := |peak.price - current_price| })
    (sortOrd (fun a b => decide (b.confidence ≤ a.confidence)) levels).take max_levels

/-!
## EVT tail extrapolator (`src/analysis/evt.rs`)

The projection formula uses `f64::ln` and `f64::powf`, which `ℚ` cannot
express; they are taken as explicit function parameters `rln` and `rpow`.
All claims settled here are independent of their values.
-/

/-- The bar highs sorted ascending.  The source comparator ranks
non-finite values lowest and compares finite values numerically; over `ℚ`
every value is finite, so this is the plain numeric sort. -/
def evtSortedHighs (bars : List Bar) : List ℚ :=
  sortOrd (fun a b => decide (a ≤ b)) (bars.map (·.high))

/-- `((n as f64 * threshold_quantile).floor() as usize).clamp(0, n-1)`:
the `as usize` cast saturates negative values to `0` (here `Int.toNat`). -/
def evtThresholdIdx (n : ℕ) (threshold_quantile : ℚ) : ℕ :=
  min (Int.toNat ⌊(n : ℚ) * threshold_quantile⌋) (n - 1)

/-- The selected threshold high. -/
def evtThreshold (bars : List Bar) (threshold_quantile : ℚ) : ℚ :=
  (evtSortedHighs bars).getD (evtThresholdIdx bars.length threshold_quantile) 0

/-- `*highs.last().unwrap_or(&threshold)`. -/
def evtMaxHigh (bars : List Bar) (threshold_quantile : ℚ) : ℚ :=
  ((evtSortedHighs bars).getLast?).getD (evtThreshold bars threshold_quantile)

/-- Exceedances above the threshold. -/
def evtExceedances (bars : List Bar) (threshold_quantile : ℚ) : List ℚ :=
  let threshold := evtThreshold bars threshold_quantile
  ((evtSortedHighs bars).filter (fun v => decide (threshold < v))).map
    (fun v => v - threshold)

/-- Method-of-moments generalized-Pareto fit `(shape, scale)`.  The
source's `!xi.is_finite()` and `!sigma.is_finite()` guards are always
false over `ℚ`. -/
def evtShapeScale (bars : List Bar) (threshold_quantile : ℚ) : ℚ × ℚ :=
  let exc := evtExceedances bars threshold_quantile
  let nu := exc.length
  let mean_excess := exc.sum / (nu : ℚ)
  let variance := ((exc.map (fun x => (x - mean_excess) ^ 2)).sum) / max ((nu : ℚ) - 1) 1
  if 0 < variance then
    let momRat := mean_excess * mean_excess / variance
    let xi := (1 / 2 : ℚ) * (1 - momRat)
    let sigma := mean_excess * (1 - xi)
    if sigma ≤ 0 then (0, max mean_excess (1 / 1000000)) else (xi, sigma)
  else
    (0, max mean_excess (1 / 1000000))

/-- The per-probability projection loop of `compute_evt_resistances`:
each requested probability contributes at most one level.
`projected.is_finite` is always true over `ℚ`. -/
def evtLoopLevels (rln : ℚ → ℚ) (rpow : ℚ → ℚ → ℚ)
    (threshold max_high lam shape scale confidence_band current_price : ℚ)
    (tail_probs : List ℚ) : List Level :=
  tail_probs.filterMap (fun p =>
    if 0 ≤ p ∧ p < 1 then
      let tail_prob := 1 - p
      if tail_prob ≤ 0 ∨ lam ≤ tail_prob then none
      else
        let lamRat := lam / tail_prob
        let projected0 :=
          if |shape| ≤ 1 / 1000000 then threshold + scale * rln lamRat
          else threshold + (scale / shape) * (rpow lamRat shape - 1)
        let projected := min projected0 (max_high + max confidence_band 1 * 5)
        if projected ≤ threshold ∨ projected ≤ current_price then none
        else
          some { price := projected, density := 0
                 confidence := rclamp p 0 1
                 confidence_band :=
                   if confidence_band ≤ 0 then max (|projected| * (1 / 1000)) 1
                   else confidence_band
                 level_type := LevelType.Resistance
                 performance := PerformanceStats.empty
                 distance_from_last := |projected - current_price| }
    else none)

/-- The fallback level pushed when the projection loop produced nothing.
`fallback.is_finite` is always true over `ℚ`, so exactly one level is
produced. -/
def evtFallbackLevel (max_high confidence_band current_price : ℚ)
    (tail_probs : List ℚ) : List Level :=
  let step := max confidence_band 1
  let fb0 := min (max_high + step) (max_high + step * 5)
  let fb := if fb0 ≤ current_price then min (current_price + step) (max_high + step * 5)
            else fb0
  [{ price := fb, density := 0
     confidence := rclamp ((tail_probs.head?).getD (99 / 100)) 0 1
     confidence_band :=
       if confidence_band ≤ 0 then max (|fb| * (1 / 1000)) 1 else confidence_band
     level_type := LevelType.Resistance
     performance := PerformanceStats.empty
     distance_from_last := |fb - current_price| }]

/-- `compute_evt_resistances` (`src/analysis/evt.rs`). -/
def compute_evt_resistances (rln : ℚ → ℚ) (rpow : ℚ → ℚ → ℚ) (bars : List Bar)
    (tail_probs : List ℚ) (threshold_quantile confidence_band current_price : ℚ) :
    List Level :=
  if bars.length < 50 ∨ tail_probs = [] then []
  else
    let nu := (evtExceedances bars threshold_quantile).length
    if nu < 5 then []
    else
      let lam := (nu : ℚ) / (bars.length : ℚ)
      if lam ≤ 0 then []
      else
        let ss := evtShapeScale bars threshold_quantile
        let loopLevels := evtLoopLevels rln rpow (evtThreshold bars threshold_quantile)
          (evtMaxHigh bars threshold_quantile) lam ss.1 ss.2 confidence_band
          current_price tail_probs
        let levels :=
          if loopLevels = [] then
            evtFallbackLevel (evtMaxHigh bars threshold_quantile) confidence_band
              current_price tail_probs
          else loopLevels
        sortOrd (fun a b => decide (b.confidence ≤ a.confidence)) levels

/-!
## Level evaluator (`src/analysis/stats.rs`)
-/

/-- The touch condition: the bar's `[low, high]` range meets
`[price - band, price + band]` (the source's
`bar.low <= price + tolerance && bar.high >= price - tolerance`). -/
def touchedLevel (level : Level) (bar : Bar) : Bool :=
  decide (bar.low ≤ level.price + level.confidence_band ∧
    level.price - level.confidence_band ≤ bar.high)

/-- The forward reaction scan after a touch at `idx`: returns
`(best_move, bars_to_best, success)` accumulated over
`idx+1 .. min(idx + lookahead + 1, bars.len())`. -/
def forwardScan (bars : List Bar) (level : Level) (reaction_lookahead : ℕ)
    (threshold : ℚ) (idx : ℕ) : ℚ × ℕ × Bool :=
  (List.range' (idx + 1) (min (idx + reaction_lookahead + 1) bars.length - (idx + 1))).foldl
    (fun acc j =>
      match bars.get? j with
      | none => acc
      | some fb =>
        let movement :=
          match level.level_type with
          | LevelType.Support => fb.high - level.price
          | LevelType.Resistance => level.price - fb.low
        let upd := if acc.1 < movement then (movement, j - idx, acc.2.2) else acc
        if threshold ≤ movement then (upd.1, upd.2.1, true) else upd)
    (0, 0, false)

/-- The per-touch outcomes of one level over the whole bar series. -/
def touchOutcomes (bars : List Bar) (atr : List ℚ) (reaction_lookahead : ℕ)
    (reaction_move_atr mean_atr : ℚ) (level : Level) : List (ℚ × ℕ × Bool) :=
  (List.range bars.length).filterMap (fun idx =>
    match bars.get? idx with
    | none => none
    | some bar =>
      if touchedLevel level bar then
        let atr_ref := max ((atr.get? idx).getD mean_atr) (1 / 1000000)
        some (forwardScan bars level reaction_lookahead (reaction_move_atr * atr_ref) idx)
      else none)

/-- Aggregation of the touch outcomes into `PerformanceStats`:
`touches = tests = number of touches`, `hits` counts successes,
reactions are summed/maxed as in the source loop. -/
def perfFor (bars : List Bar) (atr : List ℚ) (reaction_lookahead : ℕ)
    (reaction_move_atr mean_atr : ℚ) (level : Level) : PerformanceStats :=
  let outs := touchOutcomes bars atr reaction_lookahead reaction_move_atr mean_atr level
  if 0 < outs.length then
    { touches := outs.length
      tests := outs.length
      hit_rate := ((outs.countP (fun o => o.2.2)) : ℚ) / (outs.length : ℚ)
      avg_reaction := (outs.map (·.1)).sum / (outs.length : ℚ)
      max_favorable_excursion := (outs.map (·.1)).foldl max 0
      avg_reaction_bars := (outs.map (fun o => (o.2.1 : ℚ))).sum / (outs.length : ℚ) }
  else PerformanceStats.empty

/-- `evaluate_levels` (`src/analysis/stats.rs`): in-place performance
update, embedded as a `map`. -/
def evaluate_levels (levels : List Level) (bars : List Bar) (atr : List ℚ)
    (reaction_lookahead : ℕ) (reaction_move_atr : ℚ) : List Level :=
  match bars with
  | [] => levels
  | _ =>
    let mean_atr := if atr = [] then 0 else atr.sum / (atr.length : ℚ)
    levels.map (fun level =>
      { level with
          performance := perfFor bars atr reaction_lookahead reaction_move_atr
            mean_atr level })

/-!
## Regime combiner and adaptive parameter search (`src/main.rs`)
-/

/-- The inner merge walk of `combine_level_sets`: fold the (already
weighted) secondary level into the first combined level within the merge
tolerance; `none` when no combined level matches.  The price/confidence
update only happens when the summed confidence is positive, exactly as in
the source. -/
def mergeOne (merge_tolerance : ℚ) (lvl : Level) : List Level → Option (List Level)
  | [] => none
  | e :: rest =>
    if |e.price - lvl.price| ≤ merge_tolerance then
      let total_conf := e.confidence + lvl.confidence
      some ((if 0 < total_conf then
          { e with
              price := (e.price * e.confidence + lvl.price * lvl.confidence) / total_conf
              confidence := total_conf
              confidence_band := (e.confidence_band + lvl.confidence_band) * (1 / 2) }
        else e) :: rest)
    else
      (mergeOne merge_tolerance lvl rest).map (fun tl => e :: tl)

/-- `combine_level_sets` (`src/main.rs`). -/
def combine_level_sets (primary secondary : List Level)
    (primary_weight secondary_weight merge_tolerance : ℚ) : List Level :=
  let combined := primary.map (fun l =>
    { l with confidence := l.confidence * primary_weight
             performance := PerformanceStats.empty })
  let combined := secondary.foldl (fun acc l0 =>
    let l := { l0 with confidence := l0.confidence * secondary_weight
                       performance := PerformanceStats.empty }
    match mergeOne merge_tolerance l acc with
    | some acc1 => acc1
    | none => acc ++ [l]) combined
  sortOrd (fun a b => decide (b.confidence ≤ a.confidence)) combined

/-- The relaxation schedule of the ATR multiplier (`run_single_analysis`,
`src/main.rs`). -/
def multiplierScales : List ℚ :=
  [1, 0.85, 0.7, 0.55, 0.4, 0.3, 0.25, 0.2, 0.15, 0.1, 0.08, 0.05, 0.03, 0.02, 0.015]

/-- The relaxation schedule of the minimum swing distance
(`run_single_analysis`, `src/main.rs`). -/
def distanceScales : List ℚ := [1, 0.75, 0.5, 0.35, 0.25, 0.15, 0.1]

/-- The configuration fields read by the adaptive search. -/
structure SearchConfig where
  atr_multiplier : ℚ
  min_swing_distance : ℚ
  dbscan_min_points : ℕ
deriving DecidableEq, Repr

/-- The `(candidate_distance, candidate_multiplier)` pair for one scale
combination, with the source's floors `max(…, 2.0)` and `max(…, 0.01)`. -/
def comboParams (cfg : SearchConfig) (ds ms : ℚ) : ℚ × ℚ :=
  (max (cfg.min_swing_distance * ds) 2, max (cfg.atr_multiplier * ms) (1 / 100))

/-- All scale combinations in the order the nested loops of
`run_single_analysis` try them: distance scales in the outer loop,
multiplier scales in the inner loop, both in their (descending) list
order. -/
def orderedCombos (cfg : SearchConfig) : List (ℚ × ℚ) :=
  distanceScales.flatMap (fun ds => multiplierScales.map (fun ms => comboParams cfg ds ms))

/-- The swing count `detect_swings` yields for one combination
`c = (candidate_distance, candidate_multiplier)`. -/
def detectCount (bars : List Bar) (atr : List ℚ) (c : ℚ × ℚ) : ℕ :=
  (detect_swings bars atr c.2 c.1).length

/-- The labelled-break search loop of `run_single_analysis`: accept the
first combination reaching `req` swings; otherwise thread through the
best (strictly most swings so far) attempt.  Returns
`(satisfied, (swings, multiplier, distance))`. -/
def searchLoop (bars : List Bar) (atr : List ℚ) (req : ℕ) :
    List (ℚ × ℚ) → List SwingPoint × ℚ × ℚ → Bool × (List SwingPoint × ℚ × ℚ)
  | [], best => (false, best)
  | c :: rest, best =>
    let cand := detect_swings bars atr c.2 c.1
    if req ≤ cand.length then (true, (cand, c.2, c.1))
    else
      searchLoop bars atr req rest
        (if best.1.length < cand.length then (cand, c.2, c.1) else best)

/-- The swing-selection portion of `run_single_analysis` (`src/main.rs`):
the initial bar-count guard, the nested relaxation search, the fallback
to the best attempt, and the final minimum-swing-count check.  `none`
models `bail!`; `some (swings, multiplier, distance)` the parameters
actually used. -/
def adaptiveSwingSearch (bars : List Bar) (atr : List ℚ) (cfg : SearchConfig) :
    Option (List SwingPoint × ℚ × ℚ) :=
  if bars.length < cfg.dbscan_min_points then none
  else
    let req := max cfg.dbscan_min_points 8
    let out := searchLoop bars atr req (orderedCombos cfg)
      ([], cfg.atr_multiplier, cfg.min_swing_distance)
    if out.2.1.length < cfg.dbscan_min_points then none else some out.2

/-- The largest swing count any tried combination produces. -/
def maxSwingCount (bars : List Bar) (atr : List ℚ) (cfg : SearchConfig) : ℕ :=
  ((orderedCombos cfg).map (detectCount bars atr)).foldr max 0

/-!
## Claim-side definitions

`epsilonClaimed` renders claim C9's words literally; `epsilonAmended` is
the same statement with the fallback corrected to what the code computes.
Both are compared against `auto_dbscan_epsilon`, the embedding of the
source.
-/

/-- The maximum swing price (first price as the fold seed, so exact for
non-empty inputs). -/
def maxPriceOf (swings : List SwingPoint) : ℚ :=
  match swings.map (·.price) with
  | [] => 0
  | p :: ps => ps.foldl max p

/-- Claim C9 read literally: the median of the absolute consecutive
differences of the price-sorted swing prices; when that median is
non-positive (non-finite cannot occur over `ℚ`), 0.1% of the maximum
swing price. -/
def epsilonClaimed (swings : List SwingPoint) : ℚ :=
  let prices := sortOrd (fun a b => decide (a ≤ b)) (swings.map (·.price))
  let diffs := (prices.zip prices.tail).map (fun w => |w.2 - w.1|)
  let med := (medianQ diffs).getD 0
  if 0 < med then med else (1 / 1000 : ℚ) * maxPriceOf swings

/-- Claim C9 with the fallback amended to the source's scale
`max(|maximum price|, 1)`. -/
def epsilonAmended (swings : List SwingPoint) : ℚ :=
  let prices := sortOrd (fun a b => decide (a ≤ b)) (swings.map (·.price))
  let diffs := (prices.zip prices.tail).map (fun w => |w.2 - w.1|)
  let med := (medianQ diffs).getD 0
  if 0 < med then med else (1 / 1000 : ℚ) * max |maxPriceOf swings| 1

/-- The representative-price expression of `maybe_emit_cluster`
(`src/analysis/clustering.rs`), factored out so lemmas can refer to it:
the volume-weighted mean when the total volume is positive, otherwise the
arithmetic mean. -/
def clusterRep (buffer : List SwingPoint) : ℚ :=
  if 0 < (buffer.map (·.bar.volume)).sum then
    (buffer.map (fun s => s.price * s.bar.volume)).sum /
      (buffer.map (·.bar.volume)).sum
  else
    (buffer.map (·.price)).sum / (buffer.length : ℚ)

/-- What claim C6 asserts of one emitted cluster: its swing count reaches
the minimum, and it has a non-empty member list drawn from the input
swings whose length is the swing count and — whenever the members carry
non-negative volumes (the amendment) — whose price range contains the
representative price. -/
def ClusterOK (swings : List SwingPoint) (min_points : ℕ) (cl : PriceCluster) : Prop :=
  min_points ≤ cl.swing_count ∧
  ∃ members : List SwingPoint, members ≠ [] ∧ members.length = cl.swing_count ∧
    (∀ m ∈ members, m ∈ swings) ∧
    ((∀ m ∈ members, 0 ≤ m.bar.volume) →
      (∃ m ∈ members, m.price ≤ cl.representative_price) ∧
      (∃ m ∈ members, cl.representative_price ≤ m.price))

/-!
## Concrete fixtures used by witnesses and counterexamples
-/

/-- A degenerate bar whose four prices all equal `p` and whose volume is 1. -/
def flatBar (p : ℚ) : Bar :=
  { timestamp := 0, open_p := p, high := p, low := p, close := p, volume := 1 }

/-- Bars with strictly increasing flat prices `0, 1, …, n-1`. -/
def rampBars (n : ℕ) : List Bar :=
  (List.range n).map (fun i => flatBar (Nat.cast i))

/-- A swing fixed at price `p` with bar volume `v`. -/
def swingAt (p v : ℚ) : SwingPoint :=
  { index := 0
    bar := { timestamp := 0, open_p := p, high := p, low := p, close := p, volume := v }
    price := p, swing_type := SwingType.Low, atr := 0 }

/-- A level at price 100 with confidence 1 and band 1. -/
def lvlHundred : Level :=
  { price := 100, density := 0, confidence := 1, confidence_band := 1
    level_type := LevelType.Support, performance := PerformanceStats.empty
    distance_from_last := 0 }

/-- A level carrying an (out-of-range) input hit rate of 2. -/
def lvlBadRate : Level :=
  { price := 0, density := 0, confidence := 0, confidence_band := 1
    level_type := LevelType.Support
    performance := { touches := 0, tests := 0, hit_rate := 2, avg_reaction := 0
                     max_favorable_excursion := 0, avg_reaction_bars := 0 }
    distance_from_last := 0 }

/-- A three-point density grid with a negative-density neighbour. -/
def negGrid : DensityAnalysis :=
  { grid := [{ price := 0, density := -1 }, { price := 1, density := 1 },
             { price := 2, density := 0 }]
    bandwidths := [], max_density := 1 }

/-- A three-point density grid with non-negative densities. -/
def posGrid : DensityAnalysis :=
  { grid := [{ price := 0, density := 0 }, { price := 1, density := 1 },
             { price := 2, density := 0 }]
    bandwidths := [], max_density := 1 }

/-- A search configuration with unit base parameters and minimum cluster
size 1. -/
def cfgUnit : SearchConfig :=
  { atr_multiplier := 1, min_swing_distance := 1, dbscan_min_points := 1 }

/-- A single density peak of density 2 and prominence 1. -/
def peakOne : DensityPeak := { price := 100, density := 2, prominence := 1 }

/-!
## Proof-side abbreviations for the swing scan and the adaptive search

`initSwing`/`initSwingState` name the implicit initial Low pivot and the
initial loop state of `detect_swings`; `bestStep`/`bestFold` name the
best-attempt accumulator threaded through the relaxation search of
`run_single_analysis`.  All four unfold definitionally to the
corresponding subterms of the source embeddings above.
-/

/-- The implicit initial Low swing of `detect_swings`. -/
def initSwing (b0 : Bar) (ia : ℚ) : SwingPoint :=
  { index := 0, bar := b0, price := b0.low, swing_type := SwingType.Low, atr := ia }

/-- The initial loop state of `detect_swings`. -/
def initSwingState (b0 : Bar) (ia : ℚ) : SwingState :=
  { swings := [initSwing b0 ia]
    lastType := some SwingType.Low
    lastIndex := 0
    lastPrice := b0.low
    candHighPrice := b0.high
    candHighIdx := 0
    candLowPrice := b0.low
    candLowIdx := 0 }

/-- The best-attempt update of the relaxation search: keep the candidate
exactly on a strict improvement of the swing count. -/
def bestStep (bars : List Bar) (atr : List ℚ)
    (b : List SwingPoint × ℚ × ℚ) (c : ℚ × ℚ) : List SwingPoint × ℚ × ℚ :=
  if b.1.length < detectCount bars atr c then
    (detect_swings bars atr c.2 c.1, c.2, c.1)
  else b

/-- The best attempt over all combinations, from the empty initial attempt. -/
def bestFold (bars : List Bar) (atr : List ℚ) (cfg : SearchConfig) :
    List SwingPoint × ℚ × ℚ :=
  (orderedCombos cfg).foldl (bestStep bars atr)
    ([], cfg.atr_multiplier, cfg.min_swing_distance)

/-!
## Utility lemmas about the sorting and deduplication embeddings
-/

theorem mem_insertOrd {le : α → α → Bool} {a x : α} :
    ∀ {l : List α}, x ∈ insertOrd le a l ↔ x = a ∨ x ∈ l
  | [] => by simp [insertOrd]
  | b :: l => by
    simp only [insertOrd]
    by_cases h : le a b = true
    · simp [h]
    · rw [if_neg h]
      simp only [List.mem_cons, @mem_insertOrd _ le a x l]
      tauto

theorem mem_sortOrd {le : α → α → Bool} {x : α} :
    ∀ {l : List α}, x ∈ sortOrd le l ↔ x ∈ l
  | [] => Iff.rfl
  | a :: l => by
    simp only [sortOrd, mem_insertOrd, List.mem_cons, @mem_sortOrd _ le x l]

theorem length_insertOrd {le : α → α → Bool} {a : α} :
    ∀ (l : List α), (insertOrd le a l).length = l.length + 1
  | [] => rfl
  | b :: l => by
    simp only [insertOrd]
    by_cases h : le a b
    · simp [h]
    · simp [h, length_insertOrd l]

theorem length_sortOrd {le : α → α → Bool} :
    ∀ (l : List α), (sortOrd le l).length = l.length
  | [] => rfl
  | a :: l => by simp [sortOrd, length_insertOrd, length_sortOrd l]

theorem insertOrd_of_forall {le : α → α → Bool} {a : α} :
    ∀ {l : List α}, (∀ b ∈ l, le a b = true) → insertOrd le a l = a :: l
  | [], _ => rfl
  | b :: l, h => by simp [insertOrd, h b (by simp)]

theorem sortOrd_eq_self {le : α → α → Bool} :
    ∀ {l : List α}, List.Pairwise (fun x y => le x y = true) l → sortOrd le l = l
  | [], _ => rfl
  | a :: l, h => by
    rw [sortOrd, sortOrd_eq_self h.of_cons,
      insertOrd_of_forall (fun b hb => List.rel_of_pairwise_cons h hb)]

theorem pairwise_insertOrd {le : α → α → Bool}
    (htot : ∀ a b, le a b = true ∨ le b a = true)
    (htrans : ∀ a b c, le a b = true → le b c = true → le a c = true) (a : α) :
    ∀ {l : List α}, List.Pairwise (fun x y => le x y = true) l →
      List.Pairwise (fun x y => le x y = true) (insertOrd le a l)
  | [], _ => by simp [insertOrd]
  | b :: l, h => by
    simp only [insertOrd]
    by_cases hab : le a b = true
    · rw [if_pos hab]
      refine List.Pairwise.cons (fun x hx => ?_) h
      rcases List.mem_cons.mp hx with rfl | hx
      · exact hab
      · exact htrans a b x hab (List.rel_of_pairwise_cons h hx)
    · rw [if_neg hab]
      refine List.Pairwise.cons (fun x hx => ?_)
        (pairwise_insertOrd htot htrans a h.of_cons)
      rcases mem_insertOrd.mp hx with rfl | hx
      · rcases htot x b with hxb | hbx
        · exact absurd hxb hab
        · exact hbx
      · exact List.rel_of_pairwise_cons h hx

theorem pairwise_sortOrd {le : α → α → Bool}
    (htot : ∀ a b, le a b = true ∨ le b a = true)
    (htrans : ∀ a b c, le a b = true → le b c = true → le a c = true) :
    ∀ (l : List α), List.Pairwise (fun x y => le x y = true) (sortOrd le l)
  | [] => List.Pairwise.nil
  | a :: l => pairwise_insertOrd htot htrans a (pairwise_sortOrd htot htrans l)

/-- Specialisation of `pairwise_sortOrd` to a decidable `Prop` comparator. -/
theorem pairwise_sortOrd_decide {P : α → α → Prop} [DecidableRel P]
    (htot : ∀ a b, P a b ∨ P b a) (htrans : ∀ a b c, P a b → P b c → P a c)
    (l : List α) : List.Pairwise P (sortOrd (fun a b => decide (P a b)) l) := by
  have h := @pairwise_sortOrd _ (fun a b => decide (P a b))
    (fun a b => by rcases htot a b with h | h <;> simp [h])
    (fun a b c hab hbc => by
      simp only [decide_eq_true_iff] at hab hbc ⊢
      exact htrans a b c hab hbc) l
  exact h.imp (fun hxy => of_decide_eq_true hxy)

theorem dedupRun_eq_self {same : α → α → Bool} :
    ∀ (l : List α), List.Chain' (fun a b => same b a = false) l → dedupRun same l = l
  | [], _ => by simp [dedupRun]
  | [a], _ => by simp [dedupRun]
  | a :: b :: l, h => by
    have h1 : same b a = false := List.chain'_cons.mp h |>.1
    have h2 := dedupRun_eq_self (b :: l) (List.chain'_cons.mp h).2
    simp [dedupRun, h1, h2]
termination_by l => l.length

theorem foldl_max_mem [LinearOrder α] :
    ∀ (ps : List α) (p : α), ps.foldl max p ∈ p :: ps
  | [], p => by simp
  | q :: t, p => by
    have := foldl_max_mem t (max p q)
    rcases List.mem_cons.mp this with h | h
    · rcases max_choice p q with hm | hm <;>
        simp [List.foldl_cons, h, hm] at * <;> simp [h, hm]
    · simp [List.foldl_cons, List.mem_cons.mpr (Or.inr (List.mem_cons.mpr (Or.inr h)))]

theorem le_foldl_max [LinearOrder α] :
    ∀ (ps : List α) (p : α), ∀ x ∈ p :: ps, x ≤ ps.foldl max p
  | [], p, x, hx => by simp_all
  | q :: t, p, x, hx => by
    rcases List.mem_cons.mp hx with rfl | hx
    · exact le_trans (le_max_left x q) (le_foldl_max t (max x q) _ (by simp))
    · rcases List.mem_cons.mp hx with rfl | hx
      · exact le_trans (le_max_right p x) (le_foldl_max t (max p x) _ (by simp))
      · exact le_foldl_max t (max p q) x (by simp [hx])

/-- Bounds of the Rust clamp. -/
theorem rclamp_mem {x lo hi : ℚ} (h : lo ≤ hi) :
    lo ≤ rclamp x lo hi ∧ rclamp x lo hi ≤ hi := by
  constructor
  · exact le_min (le_max_right x lo) h
  · exact min_le_right _ _

/-!
## Supporting lemmas for the ATR claims
-/

theorem trueRangesFrom_length (prev : Bar) :
    ∀ (l : List Bar), (trueRangesFrom prev l).length = l.length
  | [] => rfl
  | b :: rest => by simp [trueRangesFrom, trueRangesFrom_length b rest]

theorem trueRanges_length : ∀ (bars : List Bar), (trueRanges bars).length = bars.length
  | [] => rfl
  | b :: rest => by simp [trueRanges, trueRangesFrom_length]

theorem trueRangesFrom_nonneg (prev : Bar) (l : List Bar) :
    ∀ x ∈ trueRangesFrom prev l, 0 ≤ x := by
  induction l generalizing prev with
  | nil => intro x hx; simp [trueRangesFrom] at hx
  | cons b rest ih =>
    intro x hx
    rw [trueRangesFrom] at hx
    rcases List.mem_cons.mp hx with rfl | hx
    · exact le_max_right _ (0 : ℚ)
    · exact ih b x hx

theorem trueRanges_nonneg (bars : List Bar) : ∀ x ∈ trueRanges bars, 0 ≤ x := by
  cases bars with
  | nil => intro x hx; simp [trueRanges] at hx
  | cons b rest =>
    intro x hx
    rw [trueRanges] at hx
    rcases List.mem_cons.mp hx with rfl | hx
    · exact le_max_right _ (0 : ℚ)
    · exact trueRangesFrom_nonneg b rest x hx

theorem wilderFrom_length (period : ℕ) :
    ∀ (prev : ℚ) (l : List ℚ), (wilderFrom period prev l).length = l.length
  | _, [] => rfl
  | prev, tr :: rest => by simp [wilderFrom, wilderFrom_length period _ rest]

theorem wilderFrom_nonneg (period : ℕ) (hp : 1 ≤ period) :
    ∀ (prev : ℚ) (l : List ℚ), 0 ≤ prev → (∀ x ∈ l, 0 ≤ x) →
      ∀ y ∈ wilderFrom period prev l, 0 ≤ y
  | prev, [], _, _, y, hy => by simp [wilderFrom] at hy
  | prev, tr :: rest, hprev, hl, y, hy => by
    have hper : (0 : ℚ) < (period : ℚ) := by exact_mod_cast Nat.pos_of_ne_zero (by omega)
    have hnext : 0 ≤ (prev * ((period : ℚ) - 1) + tr) / (period : ℚ) := by
      apply div_nonneg _ hper.le
      have h1 : (0 : ℚ) ≤ (period : ℚ) - 1 := by
        have : (1 : ℚ) ≤ (period : ℚ) := by exact_mod_cast hp
        linarith
      have := mul_nonneg hprev h1
      have htr := hl tr (by simp)
      linarith
    rcases List.mem_cons.mp (by simpa [wilderFrom] using hy) with rfl | hy
    · exact hnext
    · exact wilderFrom_nonneg period hp _ rest hnext
        (fun x hx => hl x (by simp [hx])) y hy

/-- C7: for every non-empty bar sequence and period ≥ 1, `compute_atr`
returns a series of the same length as the input consisting of
non-negative values, and it returns the empty series exactly when the
input is empty or the period is zero. -/
theorem compute_atr_spec (bars : List Bar) (period : ℕ) :
    (bars ≠ [] → 1 ≤ period →
      (compute_atr bars period).length = bars.length ∧
        ∀ x ∈ compute_atr bars period, 0 ≤ x) ∧
    (compute_atr bars period = [] ↔ bars = [] ∨ period = 0) := by
  by_cases hb : bars.length = 0 ∨ period = 0
  · have hempty : compute_atr bars period = [] := by
      simp only [compute_atr]
      rw [if_pos hb]
    refine ⟨fun hne hp => ?_, iff_of_true hempty ?_⟩
    · rcases hb with hb | hb
      · exact absurd (List.length_eq_zero.mp hb) hne
      · omega
    · rcases hb with hb | hb
      · exact Or.inl (List.length_eq_zero.mp hb)
      · exact Or.inr hb
  · push_neg at hb
    obtain ⟨hb1, hb2⟩ := hb
    have hnot : ¬(bars.length = 0 ∨ period = 0) := not_or.mpr ⟨hb1, hb2⟩
    have hlen : (trueRanges bars).length = bars.length := trueRanges_length bars
    have hnn : ∀ x ∈ trueRanges bars, 0 ≤ x := trueRanges_nonneg bars
    have hper : (0 : ℚ) < (period : ℚ) := by
      exact_mod_cast Nat.pos_of_ne_zero hb2
    have hmain : (compute_atr bars period).length = bars.length ∧
        ∀ x ∈ compute_atr bars period, 0 ≤ x := by
      simp only [compute_atr]
      rw [if_neg hnot]
      by_cases hshort : (trueRanges bars).length < period
      · rw [if_pos hshort]
        refine ⟨List.length_replicate _ _, fun x hx => ?_⟩
        rw [List.eq_of_mem_replicate hx]
        apply div_nonneg (List.sum_nonneg hnn)
        have hq : (0 : ℚ) < ((trueRanges bars).length : ℚ) := by
          rw [hlen]; exact_mod_cast Nat.pos_of_ne_zero hb1
        exact hq.le
      · rw [if_neg hshort]
        have hini : 0 ≤ ((trueRanges bars).take period).sum / (period : ℚ) := by
          apply div_nonneg _ hper.le
          exact List.sum_nonneg (fun x hx => hnn x (List.mem_of_mem_take hx))
        constructor
        · rw [List.length_append, List.length_replicate,
            wilderFrom_length, List.length_drop]
          omega
        · intro x hx
          rcases List.mem_append.mp hx with hx | hx
          · rw [List.eq_of_mem_replicate hx]; exact hini
          · exact wilderFrom_nonneg period (by omega) _ _ hini
              (fun z hz => hnn z (List.mem_of_mem_drop hz)) x hx
    refine ⟨fun _ _ => hmain, iff_of_false (fun hempty => ?_) ?_⟩
    · have hzero := hmain.1
      rw [hempty] at hzero
      simp at hzero
      omega
    · rintro (hcases | hcases)
      · rw [hcases] at hb1; simp at hb1
      · exact hb2 hcases

/-- Witness for C7 at a concrete one-bar series with period 1. -/
theorem compute_atr_spec_witness :
    (compute_atr [flatBar 0] 1).length = [flatBar 0].length ∧
      ∀ x ∈ compute_atr [flatBar 0] 1, 0 ≤ x :=
  (compute_atr_spec [flatBar 0] 1).1 (by decide) (by decide)

/-- C10: `evaluate_levels` only rewrites the `performance` field: erasing
the performance on both sides yields the same list, so the output has the
same length, order, and all other fields (price, density, confidence,
confidence band, level type, distance) unchanged. -/
theorem evaluate_levels_frame (levels : List Level) (bars : List Bar) (atr : List ℚ)
    (reaction_lookahead : ℕ) (reaction_move_atr : ℚ) :
    (evaluate_levels levels bars atr reaction_lookahead reaction_move_atr).map
        (fun l => { l with performance := PerformanceStats.empty }) =
      levels.map (fun l => { l with performance := PerformanceStats.empty }) := by
  cases bars with
  | nil => rfl
  | cons b bs =>
    simp only [evaluate_levels, List.map_map]
    rfl

/-!
## Supporting lemmas for the epsilon-estimation claim
-/

theorem le_getLast_of_pairwise {l : List ℚ} (hp : List.Pairwise (· ≤ ·) l) :
    ∀ x ∈ l, ∀ y ∈ l.getLast?, x ≤ y := by
  induction l with
  | nil => intro x hx; simp at hx
  | cons a t ih =>
    intro x hx y hy
    cases t with
    | nil =>
      simp at hx hy
      rw [hx, hy]
    | cons b t2 =>
      rw [List.getLast?_cons_cons] at hy
      rcases List.mem_cons.mp hx with rfl | hx
      · have hymem : y ∈ b :: t2 := by
          obtain ⟨hne, rfl⟩ := List.mem_getLast?_eq_getLast hy
          exact List.getLast_mem hne
        exact List.rel_of_pairwise_cons hp hymem
      · exact ih hp.of_cons x hx y hy

theorem sortOrd_getLast_eq_foldl_max (p : ℚ) (ps : List ℚ) :
    ((sortOrd (fun a b => decide (a ≤ b)) (p :: ps)).getLast?).getD 1 =
      ps.foldl max p := by
  set s := sortOrd (fun a b => decide (a ≤ b)) (p :: ps) with hs
  have hne : s ≠ [] := by
    have hsl : s.length = ps.length + 1 := by rw [hs, length_sortOrd]; simp
    intro hcon
    rw [hcon] at hsl
    simp at hsl
  have hpair : List.Pairwise (· ≤ ·) s :=
    pairwise_sortOrd_decide le_total (fun a b c hab hbc => le_trans hab hbc) _
  have hlast := List.getLast?_eq_getLast_of_ne_nil hne
  have hmmem : s.getLast hne ∈ s := List.getLast_mem hne
  have hmmem2 : s.getLast hne ∈ p :: ps := mem_sortOrd.mp hmmem
  have h1 : s.getLast hne ≤ ps.foldl max p := le_foldl_max ps p _ hmmem2
  have h2 : ps.foldl max p ≤ s.getLast hne :=
    le_getLast_of_pairwise hpair _ (mem_sortOrd.mpr (foldl_max_mem ps p)) _
      (by rw [hlast]; rfl)
  rw [hlast]
  simpa using le_antisymm h1 h2

/-- C9 (amended): for at least two swings, `auto_dbscan_epsilon` returns
the median of the absolute consecutive differences of the price-sorted
swing prices, and when that median is non-positive it falls back to 0.1%
of `max(|maximum swing price|, 1)` (the claim's `0.1% of the maximum
swing price` omits the absolute value and the floor at 1). -/
theorem auto_dbscan_epsilon_amended (swings : List SwingPoint)
    (h : 2 ≤ swings.length) :
    auto_dbscan_epsilon swings = epsilonAmended swings := by
  cases swings with
  | nil => simp at h
  | cons s0 t =>
    cases t with
    | nil => simp at h
    | cons s1 rest =>
      have hlast :
          ((sortOrd (fun a b => decide (a ≤ b))
              ((s0 :: s1 :: rest).map (·.price))).getLast?).getD 1 =
            maxPriceOf (s0 :: s1 :: rest) := by
        have h1 := sortOrd_getLast_eq_foldl_max s0.price ((s1 :: rest).map (·.price))
        rw [maxPriceOf]
        simpa using h1
      simp only [auto_dbscan_epsilon, epsilonAmended]
      rw [if_neg (by simp only [List.length_cons]; omega), hlast]

/-- Witness for the amended C9 at a concrete two-swing input. -/
theorem auto_dbscan_epsilon_amended_witness :
    auto_dbscan_epsilon [swingAt (1 / 2) 1, swingAt (1 / 2) 1] =
      epsilonAmended [swingAt (1 / 2) 1, swingAt (1 / 2) 1] :=
  auto_dbscan_epsilon_amended _ (by decide)

/-- C9 counterexample: for two swings both priced 1/2 the consecutive
difference median is 0, and the code falls back to
`0.001 * max(|1/2|, 1) = 0.001`, not the claim's `0.001 * (1/2)`. -/
theorem auto_dbscan_epsilon_ne_claimed :
    auto_dbscan_epsilon [swingAt (1 / 2) 1, swingAt (1 / 2) 1] ≠
      epsilonClaimed [swingAt (1 / 2) 1, swingAt (1 / 2) 1] := by
  norm_num [auto_dbscan_epsilon, epsilonClaimed, swingAt, sortOrd, insertOrd,
    medianQ, maxPriceOf, abs_eq_max_neg, max_def]

/-!
## Supporting lemmas for the peak-detector claim
-/

theorem peakScan_nil : peakScan [] = [] := by
  rw [peakScan] <;> simp

theorem peakScan_single (a : DensityPoint) : peakScan [a] = [] := by
  rw [peakScan] <;> simp

theorem peakScan_pair (a b : DensityPoint) : peakScan [a, b] = [] := by
  rw [peakScan] <;> simp

theorem peakScan_cons3 (p c n : DensityPoint) (rest : List DensityPoint) :
    peakScan (p :: c :: n :: rest) =
      (if c.density ≤ p.density ∨ c.density ≤ n.density then []
       else
         [{ price := c.price, density := c.density
            prominence := c.density -
              min (min p.density c.density) (min n.density c.density) }])
        ++ peakScan (c :: n :: rest) := by
  rw [peakScan]

theorem peakScan_mem {pk : DensityPeak} :
    ∀ (grid : List DensityPoint), pk ∈ peakScan grid →
      ∃ l1 p c n l2, grid = l1 ++ p :: c :: n :: l2 ∧ pk.price = c.price ∧
        pk.density = c.density ∧ p.density < c.density ∧ n.density < c.density ∧
        pk.prominence = c.density -
          min (min p.density c.density) (min n.density c.density)
  | [], h => by simp [peakScan] at h
  | [a], h => by simp [peakScan] at h
  | [a, b], h => by simp [peakScan] at h
  | p :: c :: n :: rest, h => by
    rw [peakScan] at h
    rcases List.mem_append.mp h with h | h
    · by_cases hcond : c.density ≤ p.density ∨ c.density ≤ n.density
      · rw [if_pos hcond] at h
        simp at h
      · rw [if_neg hcond] at h
        push_neg at hcond
        simp only [List.mem_singleton] at h
        subst h
        exact ⟨[], p, c, n, rest, rfl, rfl, rfl, hcond.1, hcond.2, rfl⟩
    · obtain ⟨l1, p1, c1, n1, l2, heq, h2, h3, h4, h5, h6⟩ :=
        peakScan_mem (c :: n :: rest) h
      exact ⟨p :: l1, p1, c1, n1, l2, by rw [List.cons_append, ← heq], h2, h3,
        h4, h5, h6⟩
termination_by grid => grid.length

/-- C5 (amended): every peak returned by `detect_peaks` corresponds to an
interior grid point whose density strictly exceeds both neighbours, its
prominence equals `density - min(min(prev,curr), min(next,curr))`, and the
result is sorted by descending prominence — all for every grid; the
claim's `prominence ≤ density` additionally requires the grid's densities
to be non-negative (as the density estimator guarantees), since a negative
neighbour makes the prominence exceed the density. -/
theorem detect_peaks_amended (d : DensityAnalysis) :
    (∀ pk ∈ detect_peaks d, ∃ l1 p c n l2,
        d.grid = l1 ++ p :: c :: n :: l2 ∧ pk.price = c.price ∧
        pk.density = c.density ∧ p.density < c.density ∧ n.density < c.density ∧
        pk.prominence = c.density -
          min (min p.density c.density) (min n.density c.density)) ∧
    ((∀ pt ∈ d.grid, 0 ≤ pt.density) →
      ∀ pk ∈ detect_peaks d, pk.prominence ≤ pk.density) ∧
    List.Pairwise (fun a b => b.prominence ≤ a.prominence) (detect_peaks d) := by
  have hmem : ∀ pk ∈ detect_peaks d, pk ∈ peakScan d.grid := by
    intro pk hpk
    unfold detect_peaks at hpk
    by_cases hlen : d.grid.length < 3
    · rw [if_pos hlen] at hpk
      simp at hpk
    · rw [if_neg hlen] at hpk
      exact mem_sortOrd.mp hpk
  refine ⟨fun pk hpk => peakScan_mem _ (hmem pk hpk), ?_, ?_⟩
  · intro hnn pk hpk
    obtain ⟨l1, p, c, n, l2, heq, hprice, hdens, hpc, hnc, hprom⟩ :=
      peakScan_mem _ (hmem pk hpk)
    have h0p : 0 ≤ p.density := hnn p (by rw [heq]; simp)
    have h0n : 0 ≤ n.density := hnn n (by rw [heq]; simp)
    have h0c : 0 ≤ c.density := le_trans h0p hpc.le
    have hmin : 0 ≤ min (min p.density c.density) (min n.density c.density) := by
      simp only [le_min_iff]
      exact ⟨⟨h0p, h0c⟩, h0n, h0c⟩
    rw [hprom, hdens]
    linarith
  · unfold detect_peaks
    by_cases hlen : d.grid.length < 3
    · rw [if_pos hlen]
      exact List.Pairwise.nil
    · rw [if_neg hlen]
      apply pairwise_sortOrd_decide
      · exact fun a b => le_total b.prominence a.prominence
      · exact fun a b c hab hbc => le_trans hbc hab

/-- Witness for the amended C5 on the non-negative grid `posGrid`. -/
theorem detect_peaks_amended_witness :
    ((detect_peaks posGrid).getD 0 peakOne).prominence ≤
      ((detect_peaks posGrid).getD 0 peakOne).density := by
  have hev : detect_peaks posGrid =
      [{ price := 1, density := 1, prominence := 1 }] := by
    norm_num [detect_peaks, posGrid, peakScan_cons3, peakScan_pair, sortOrd,
      insertOrd, min_def]
  exact (detect_peaks_amended posGrid).2.1 (by decide) _ (by rw [hev]; simp)

/-- C5 counterexample: on a grid containing a negative density the single
returned peak has density 1 but prominence 2, refuting the claim's
unconditional `prominence ≤ density`. -/
theorem detect_peaks_counterexample :
    ¬ (∀ pk ∈ detect_peaks negGrid, pk.prominence ≤ pk.density) := by
  intro hall
  have hev : detect_peaks negGrid =
      [{ price := 1, density := 1, prominence := 2 }] := by
    norm_num [detect_peaks, negGrid, peakScan_cons3, peakScan_pair, sortOrd,
      insertOrd, min_def]
  have h := hall { price := 1, density := 1, prominence := 2 } (by rw [hev]; simp)
  norm_num at h

/-!
## Supporting lemmas for the level-evaluator claims
-/

theorem touchOutcomes_eq_nil (bars : List Bar) (atr : List ℚ) (rl : ℕ)
    (rma ma : ℚ) (level : Level) (h : ∀ b ∈ bars, touchedLevel level b = false) :
    touchOutcomes bars atr rl rma ma level = [] := by
  unfold touchOutcomes
  rw [List.filterMap_eq_nil]
  intro idx hidx
  cases hget : bars.get? idx with
  | none => simp [hget]
  | some bar =>
    have hbar : bar ∈ bars := List.get?_mem hget
    simp [hget, h bar hbar]

theorem perfFor_hit_rate_bounds (bars : List Bar) (atr : List ℚ) (rl : ℕ)
    (rma ma : ℚ) (level : Level) :
    0 ≤ (perfFor bars atr rl rma ma level).hit_rate ∧
      (perfFor bars atr rl rma ma level).hit_rate ≤ 1 := by
  unfold perfFor
  by_cases h : 0 < (touchOutcomes bars atr rl rma ma level).length
  · rw [if_pos h]
    refine ⟨div_nonneg (by positivity) (by positivity), ?_⟩
    rw [div_le_one (by exact_mod_cast h)]
    exact_mod_cast List.countP_le_length _
  · rw [if_neg h]
    simp [PerformanceStats.empty]

theorem perfFor_untouched (bars : List Bar) (atr : List ℚ) (rl : ℕ)
    (rma ma : ℚ) (level : Level) (h : ∀ b ∈ bars, touchedLevel level b = false) :
    perfFor bars atr rl rma ma level = PerformanceStats.empty := by
  unfold perfFor
  rw [touchOutcomes_eq_nil bars atr rl rma ma level h]
  simp

/-- C8 (amended): for every NON-EMPTY bar series, every level coming out
of `evaluate_levels` has `hit_rate ∈ [0, 1]`, and a level touched by no
bar (its `[price-band, price+band]` band meets no bar's `[low, high]`
range, the source's touch test) gets the all-zero `PerformanceStats`.
The claim's quantification over every bar series fails only for the empty
series, where the source returns the input levels – and their input
performance records – unchanged. -/
theorem evaluate_levels_amended (levels : List Level) (bars : List Bar)
    (atr : List ℚ) (reaction_lookahead : ℕ) (reaction_move_atr : ℚ)
    (hbars : bars ≠ []) :
    (∀ lvl ∈ evaluate_levels levels bars atr reaction_lookahead reaction_move_atr,
        0 ≤ lvl.performance.hit_rate ∧ lvl.performance.hit_rate ≤ 1) ∧
    (∀ lvl ∈ evaluate_levels levels bars atr reaction_lookahead reaction_move_atr,
        (∀ b ∈ bars, touchedLevel lvl b = false) →
        lvl.performance = PerformanceStats.empty) := by
  cases bars with
  | nil => exact absurd rfl hbars
  | cons b bs =>
    constructor
    · intro lvl hlvl
      simp only [evaluate_levels, List.mem_map] at hlvl
      obtain ⟨l0, _, rfl⟩ := hlvl
      exact perfFor_hit_rate_bounds _ _ _ _ _ _
    · intro lvl hlvl huntouched
      simp only [evaluate_levels, List.mem_map] at hlvl
      obtain ⟨l0, _, rfl⟩ := hlvl
      show perfFor _ _ _ _ _ l0 = PerformanceStats.empty
      exact perfFor_untouched _ _ _ _ _ _ (fun bb hbb => huntouched bb hbb)

/-- Witness for the amended C8: one touched level gets a hit rate in
`[0, 1]` and one level whose band misses the single bar gets the all-zero
record. -/
theorem evaluate_levels_amended_witness :
    (0 ≤ (perfFor [flatBar 100] [1] 3 1 1 lvlHundred).hit_rate ∧
      (perfFor [flatBar 100] [1] 3 1 1 lvlHundred).hit_rate ≤ 1) ∧
    perfFor [flatBar 100] [1] 3 1 1 lvlBadRate = PerformanceStats.empty := by
  have hmean : (if ([1] : List ℚ) = [] then 0 else ([1] : List ℚ).sum / (([1] : List ℚ).length : ℚ)) = 1 := by
    norm_num
  constructor
  · have h := (evaluate_levels_amended [lvlHundred] [flatBar 100] [1] 3 1 (by simp)).1
    have hmem : ({ lvlHundred with
        performance := perfFor [flatBar 100] [1] 3 1 1 lvlHundred }) ∈
        evaluate_levels [lvlHundred] [flatBar 100] [1] 3 1 := by
      simp only [evaluate_levels, List.map_cons, List.map_nil, hmean]
      simp
    exact h _ hmem
  · have h := (evaluate_levels_amended [lvlBadRate] [flatBar 100] [1] 3 1 (by simp)).2
    have hmem : ({ lvlBadRate with
        performance := perfFor [flatBar 100] [1] 3 1 1 lvlBadRate }) ∈
        evaluate_levels [lvlBadRate] [flatBar 100] [1] 3 1 := by
      simp only [evaluate_levels, List.map_cons, List.map_nil, hmean]
      simp
    have huntouched : ∀ b ∈ [flatBar 100],
        touchedLevel { lvlBadRate with
          performance := perfFor [flatBar 100] [1] 3 1 1 lvlBadRate } b = false := by
      intro b hb
      simp only [List.mem_singleton] at hb
      subst hb
      norm_num [touchedLevel, lvlBadRate, flatBar]
    exact h _ hmem huntouched

/-- C8 counterexample: on the EMPTY bar series `evaluate_levels` returns
its input unchanged, so a level entering with `hit_rate = 2` leaves with
`hit_rate = 2 ∉ [0, 1]`, and its band vacuously meets no bar yet its
performance record is not the all-zero one. -/
theorem evaluate_levels_counterexample :
    (evaluate_levels [lvlBadRate] [] [] 0 0).map
        (fun l => l.performance.hit_rate) = [2] ∧
      ¬ ((2 : ℚ) ≤ 1) := by
  constructor
  · rfl
  · norm_num

/-!
## Supporting lemmas for the clusterer claims
-/

theorem foldl_min_mem [LinearOrder α] :
    ∀ (ps : List α) (p : α), ps.foldl min p ∈ p :: ps
  | [], p => by simp
  | q :: t, p => by
    have h := foldl_min_mem t (min p q)
    rcases List.mem_cons.mp h with h | h
    · rcases min_choice p q with hm | hm <;>
        simp [List.foldl_cons, h, hm] at * <;> simp [h, hm]
    · simp [List.foldl_cons, List.mem_cons.mpr (Or.inr (List.mem_cons.mpr (Or.inr h)))]

theorem foldl_min_le [LinearOrder α] :
    ∀ (ps : List α) (p : α), ∀ x ∈ p :: ps, ps.foldl min p ≤ x
  | [], p, x, hx => by simp_all
  | q :: t, p, x, hx => by
    rcases List.mem_cons.mp hx with rfl | hx
    · exact le_trans (foldl_min_le t (min x q) _ (by simp)) (min_le_left x q)
    · rcases List.mem_cons.mp hx with rfl | hx
      · exact le_trans (foldl_min_le t (min p x) _ (by simp)) (min_le_right p x)
      · exact foldl_min_le t (min p q) x (by simp [hx])

theorem sum_map_const_q (l : List α) (c : ℚ) :
    (l.map (fun _ => c)).sum = (l.length : ℚ) * c := by
  induction l with
  | nil => simp
  | cons a t ih => simp [ih, add_mul]; ring

/-- The representative price of a non-empty buffer with non-negative
volumes lies within the price range of the buffer. -/
theorem rep_price_bounds (buffer : List SwingPoint) (hne : buffer ≠ [])
    (hvol : ∀ m ∈ buffer, 0 ≤ m.bar.volume) :
    (∃ m ∈ buffer, m.price ≤ clusterRep buffer) ∧
    (∃ m ∈ buffer, clusterRep buffer ≤ m.price) := by
  obtain ⟨b0, brest, rfl⟩ := List.exists_cons_of_ne_nil hne
  have hmapcons : (b0 :: brest).map (·.price) = b0.price :: brest.map (·.price) := rfl
  -- the extremal prices, attained by members
  obtain ⟨mMax, hmMaxMem, hmMaxEq⟩ :
      ∃ m ∈ b0 :: brest, m.price = (brest.map (·.price)).foldl max b0.price := by
    have h := foldl_max_mem (brest.map (·.price)) b0.price
    rw [← hmapcons] at h
    obtain ⟨m, hm, hmeq⟩ := List.mem_map.mp h
    exact ⟨m, hm, hmeq⟩
  obtain ⟨mMin, hmMinMem, hmMinEq⟩ :
      ∃ m ∈ b0 :: brest, m.price = (brest.map (·.price)).foldl min b0.price := by
    have h := foldl_min_mem (brest.map (·.price)) b0.price
    rw [← hmapcons] at h
    obtain ⟨m, hm, hmeq⟩ := List.mem_map.mp h
    exact ⟨m, hm, hmeq⟩
  have hub : ∀ m ∈ b0 :: brest, m.price ≤ mMax.price := by
    intro m hm
    rw [hmMaxEq]
    exact le_foldl_max _ _ _ (by rw [← hmapcons]; exact List.mem_map_of_mem _ hm)
  have hlb : ∀ m ∈ b0 :: brest, mMin.price ≤ m.price := by
    intro m hm
    rw [hmMinEq]
    exact foldl_min_le _ _ _ (by rw [← hmapcons]; exact List.mem_map_of_mem _ hm)
  unfold clusterRep
  by_cases htot : 0 < ((b0 :: brest).map (·.bar.volume)).sum
  · rw [if_pos htot]
    have hSub : ((b0 :: brest).map (fun s => s.price * s.bar.volume)).sum ≤
        mMax.price * ((b0 :: brest).map (·.bar.volume)).sum := by
      rw [← List.sum_map_mul_left]
      exact List.sum_le_sum (fun s hs =>
        mul_le_mul_of_nonneg_right (hub s hs) (hvol s hs))
    have hSlb : mMin.price * ((b0 :: brest).map (·.bar.volume)).sum ≤
        ((b0 :: brest).map (fun s => s.price * s.bar.volume)).sum := by
      rw [← List.sum_map_mul_left]
      exact List.sum_le_sum (fun s hs =>
        mul_le_mul_of_nonneg_right (hlb s hs) (hvol s hs))
    constructor
    · exact ⟨mMin, hmMinMem, (le_div_iff htot).mpr hSlb⟩
    · exact ⟨mMax, hmMaxMem, (div_le_iff htot).mpr hSub⟩
  · rw [if_neg htot]
    have hlen : (0 : ℚ) < ((b0 :: brest).length : ℚ) := by
      exact_mod_cast Nat.succ_pos brest.length
    have hSub : ((b0 :: brest).map (·.price)).sum ≤
        ((b0 :: brest).length : ℚ) * mMax.price := by
      rw [← sum_map_const_q (b0 :: brest) mMax.price]
      exact List.sum_le_sum (fun s hs => hub s hs)
    have hSlb : ((b0 :: brest).length : ℚ) * mMin.price ≤
        ((b0 :: brest).map (·.price)).sum := by
      rw [← sum_map_const_q (b0 :: brest) mMin.price]
      exact List.sum_le_sum (fun s hs => hlb s hs)
    constructor
    · refine ⟨mMin, hmMinMem, (le_div_iff hlen).mpr ?_⟩
      rw [mul_comm]
      exact hSlb
    · refine ⟨mMax, hmMaxMem, (div_le_iff hlen).mpr ?_⟩
      rw [mul_comm]
      exact hSub

theorem maybe_emit_skip {min_points : ℕ} {clusters : List PriceCluster}
    {inliers buffer : List SwingPoint} (h : buffer.length < min_points) :
    maybe_emit min_points clusters inliers buffer = (clusters, inliers) := by
  unfold maybe_emit
  rw [if_pos h]

theorem maybe_emit_emit {min_points : ℕ} {clusters : List PriceCluster}
    {inliers buffer : List SwingPoint} (h : ¬ buffer.length < min_points) :
    maybe_emit min_points clusters inliers buffer =
      (clusters ++ [{ id := clusters.length
                      representative_price := clusterRep buffer
                      total_volume := (buffer.map (·.bar.volume)).sum
                      swing_count := buffer.length }], inliers ++ buffer) := by
  unfold maybe_emit clusterRep
  rw [if_neg h]

/-- Unfolding equation: an empty buffer starts a new one. -/
theorem clusterScan_cons_none {eps : ℚ} {minPts : ℕ} {s : SwingPoint}
    {rest : List SwingPoint} {clusters : List PriceCluster}
    {inliers buffer : List SwingPoint} (h : buffer.getLast? = none) :
    clusterScan eps minPts (s :: rest) clusters inliers buffer =
      clusterScan eps minPts rest clusters inliers [s] := by
  simp [clusterScan, h]

/-- Unfolding equation: a close price extends the buffer. -/
theorem clusterScan_cons_close {eps : ℚ} {minPts : ℕ} {s last : SwingPoint}
    {rest : List SwingPoint} {clusters : List PriceCluster}
    {inliers buffer : List SwingPoint} (h : buffer.getLast? = some last)
    (hclose : |s.price - last.price| ≤ eps) :
    clusterScan eps minPts (s :: rest) clusters inliers buffer =
      clusterScan eps minPts rest clusters inliers (buffer ++ [s]) := by
  simp [clusterScan, h, hclose]

/-- Unfolding equation: a distant price emits the buffer and restarts. -/
theorem clusterScan_cons_far {eps : ℚ} {minPts : ℕ} {s last : SwingPoint}
    {rest : List SwingPoint} {clusters : List PriceCluster}
    {inliers buffer : List SwingPoint} (h : buffer.getLast? = some last)
    (hfar : ¬ |s.price - last.price| ≤ eps) :
    clusterScan eps minPts (s :: rest) clusters inliers buffer =
      clusterScan eps minPts rest (maybe_emit minPts clusters inliers buffer).1
        (maybe_emit minPts clusters inliers buffer).2 [s] := by
  simp [clusterScan, h, hfar]

/-- Invariant of the clustering loop: emitted clusters satisfy
`ClusterOK`, the cluster swing counts total the inlier count, and the
inliers never outnumber the consumed swings. -/
theorem clusterScan_invariant (eps : ℚ) (minPts : ℕ) (swings : List SwingPoint) :
    ∀ (rest : List SwingPoint) (clusters : List PriceCluster)
      (inliers buffer : List SwingPoint),
      (∀ m ∈ rest, m ∈ swings) → (∀ m ∈ buffer, m ∈ swings) →
      (buffer = [] → rest ≠ []) →
      (∀ cl ∈ clusters, ClusterOK swings minPts cl) →
      (clusters.map (·.swing_count)).sum = inliers.length →
      (∀ cl ∈ (clusterScan eps minPts rest clusters inliers buffer).1,
          ClusterOK swings minPts cl) ∧
      ((clusterScan eps minPts rest clusters inliers buffer).1.map
          (·.swing_count)).sum =
        (clusterScan eps minPts rest clusters inliers buffer).2.length ∧
      (clusterScan eps minPts rest clusters inliers buffer).2.length ≤
        inliers.length + buffer.length + rest.length := by
  intro rest
  induction rest with
  | nil =>
    intro clusters inliers buffer hrest hbuffer hbr hok hsum
    have hbne : buffer ≠ [] := fun h => (hbr h) rfl
    simp only [clusterScan]
    by_cases hlen : buffer.length < minPts
    · rw [maybe_emit_skip hlen]
      exact ⟨hok, hsum, by simp⟩
    · rw [maybe_emit_emit hlen]
      refine ⟨?_, ?_, ?_⟩
      · intro cl hcl
        rcases List.mem_append.mp hcl with hcl | hcl
        · exact hok cl hcl
        · simp only [List.mem_singleton] at hcl
          subst hcl
          refine ⟨by simpa using Nat.le_of_not_lt hlen, buffer, hbne, rfl,
            hbuffer, fun hv => ?_⟩
          exact rep_price_bounds buffer hbne hv
      · simp only [List.map_append, List.sum_append, List.length_append, hsum]
        simp
      · simp only [List.length_append, List.length_cons, List.length_nil]
        omega
  | cons s rest ih =>
    intro clusters inliers buffer hrest hbuffer hbr hok hsum
    have hs : s ∈ swings := hrest s (by simp)
    have hrest2 : ∀ m ∈ rest, m ∈ swings := fun m hm => hrest m (by simp [hm])
    cases hbuf : buffer.getLast? with
    | none =>
      rw [clusterScan_cons_none hbuf]
      have h := ih clusters inliers [s] hrest2
        (by intro m hm; simp only [List.mem_singleton] at hm; rw [hm]; exact hs)
        (by simp) hok hsum
      refine ⟨h.1, h.2.1, le_trans h.2.2 ?_⟩
      simp only [List.length_append, List.length_cons, List.length_nil]
      omega
    | some last =>
      by_cases hclose : |s.price - last.price| ≤ eps
      · rw [clusterScan_cons_close hbuf hclose]
        have h := ih clusters inliers (buffer ++ [s]) hrest2
          (by intro m hm
              rcases List.mem_append.mp hm with hm | hm
              · exact hbuffer m hm
              · simp only [List.mem_singleton] at hm; rw [hm]; exact hs)
          (by simp) hok hsum
        refine ⟨h.1, h.2.1, le_trans h.2.2 ?_⟩
        simp only [List.length_append, List.length_cons, List.length_nil]
        omega
      · rw [clusterScan_cons_far hbuf hclose]
        have hbne : buffer ≠ [] := by
          intro hcon
          rw [hcon] at hbuf
          simp at hbuf
        by_cases hlen : buffer.length < minPts
        · rw [maybe_emit_skip hlen]
          have h := ih clusters inliers [s] hrest2
            (by intro m hm; simp only [List.mem_singleton] at hm; rw [hm]; exact hs)
            (by simp) hok hsum
          refine ⟨h.1, h.2.1, le_trans h.2.2 ?_⟩
          simp only [List.length_append, List.length_cons, List.length_nil]
          omega
        · rw [maybe_emit_emit hlen]
          have h := ih
            (clusters ++ [PriceCluster.mk clusters.length (clusterRep buffer)
              ((buffer.map (·.bar.volume)).sum) buffer.length])
            (inliers ++ buffer) [s] hrest2
            (by intro m hm; simp only [List.mem_singleton] at hm; rw [hm]; exact hs)
            (by simp)
            (by intro cl hcl
                rcases List.mem_append.mp hcl with hcl | hcl
                · exact hok cl hcl
                · simp only [List.mem_singleton] at hcl
                  subst hcl
                  refine ⟨by simpa using Nat.le_of_not_lt hlen, buffer, hbne,
                    rfl, hbuffer, fun hv => ?_⟩
                  exact rep_price_bounds buffer hbne hv)
            (by simp only [List.map_append, List.sum_append, List.length_append,
                  hsum]
                simp)
          refine ⟨h.1, h.2.1, le_trans h.2.2 ?_⟩
          simp only [List.length_append, List.length_cons, List.length_nil]
          omega

/-- C6 (amended): for a positive epsilon, every cluster emitted by
`cluster_swings` satisfies `ClusterOK` — member count at least
`min_points`, members drawn from the input with the cluster's swing count,
and, PROVIDED the member volumes are non-negative (the amendment: a
negative volume with positive total lets the volume-weighted mean escape
the price range), a representative price within the members' price
range — and the cluster swing counts sum to at most the input length. -/
theorem cluster_swings_amended (swings : List SwingPoint) (epsilon : ℚ)
    (min_points : ℕ) (heps : 0 < epsilon) :
    (∀ cl ∈ (cluster_swings swings epsilon min_points).clusters,
        ClusterOK swings min_points cl) ∧
    ((cluster_swings swings epsilon min_points).clusters.map
        (·.swing_count)).sum ≤ swings.length := by
  cases swings with
  | nil => simp [cluster_swings]
  | cons s0 srest =>
    have hsortlen :
        (sortOrd (fun a b => decide (a.price ≤ b.price)) (s0 :: srest)).length =
          (s0 :: srest).length := length_sortOrd _
    have hscan := clusterScan_invariant epsilon min_points (s0 :: srest)
      (sortOrd (fun a b => decide (a.price ≤ b.price)) (s0 :: srest)) [] [] []
      (fun m hm => mem_sortOrd.mp hm) (by simp)
      (fun _ => by
        intro hcon
        rw [hcon] at hsortlen
        simp at hsortlen)
      (by simp) (by simp)
    have hunf : cluster_swings (s0 :: srest) epsilon min_points =
        ClusterResult.mk
          (clusterScan epsilon min_points
            (sortOrd (fun a b => decide (a.price ≤ b.price)) (s0 :: srest))
            [] [] []).1
          (clusterScan epsilon min_points
            (sortOrd (fun a b => decide (a.price ≤ b.price)) (s0 :: srest))
            [] [] []).2 := by
      simp only [cluster_swings]
      rw [if_neg (not_le.mpr heps)]
    rw [hunf]
    refine ⟨hscan.1, ?_⟩
    have hlen := hscan.2.2
    simp only [List.length_nil, Nat.zero_add, hsortlen] at hlen
    rw [hscan.2.1]
    simpa using hlen

/-- Witness for the amended C6: two positive-volume swings at prices 1
and 2 with epsilon 10 form clusters whose swing counts total at most the
input length 2. -/
theorem cluster_swings_amended_witness :
    ((cluster_swings [swingAt 1 1, swingAt 2 1] 10 2).clusters.map
        (·.swing_count)).sum ≤ 2 := by
  simpa using
    (cluster_swings_amended [swingAt 1 1, swingAt 2 1] 10 2 (by norm_num)).2

/-- C6 counterexample: swings priced 1 and 2 with volumes -1 and 2 fall
into one cluster (total volume 1 > 0) whose volume-weighted
representative price is `(1*(-1) + 2*2)/1 = 3`, outside the member price
range `[1, 2]` — the claim fails without a non-negative-volume
assumption. -/
theorem cluster_swings_counterexample :
    (cluster_swings [swingAt 1 (-1), swingAt 2 2] 10 2).clusters.map
        (·.representative_price) = [3] ∧ ¬ ((3 : ℚ) ≤ 2) := by
  constructor
  · norm_num [cluster_swings, clusterScan, maybe_emit, sortOrd, insertOrd,
      swingAt, abs_eq_max_neg, max_def]
  · norm_num

/-!
## Supporting lemmas for the confidence-bound claim
-/

theorem sortOrd_singleton {le : α → α → Bool} (a : α) : sortOrd le [a] = [a] := rfl

theorem build_levels_conf (peaks : List DensityPeak) (md cp ma bm : ℚ) (ml : ℕ) :
    ∀ lvl ∈ build_levels peaks md cp ma bm ml,
      0 ≤ lvl.confidence ∧ lvl.confidence ≤ 1 := by
  intro lvl hlvl
  cases peaks with
  | nil => simp [build_levels] at hlvl
  | cons pk0 prest =>
    simp only [build_levels] at hlvl
    have hlvl2 := mem_sortOrd.mp (List.mem_of_mem_take hlvl)
    obtain ⟨peak, hpk, rfl⟩ := List.mem_map.mp hlvl2
    have hds : 0 ≤ (if 0 < md then rclamp (peak.density / md) 0 1 else 0) ∧
        (if 0 < md then rclamp (peak.density / md) 0 1 else 0) ≤ 1 := by
      by_cases h : 0 < md
      · rw [if_pos h]
        exact rclamp_mem (by norm_num)
      · rw [if_neg h]
        norm_num
    have hps := @rclamp_mem (peak.prominence /
      max (((pk0 :: prest).map (·.prominence)).foldl max 0) (1 / 1000000000))
      0 1 (by norm_num)
    simp only
    constructor
    · nlinarith [hds.1, hps.1]
    · nlinarith [hds.2, hps.2, hds.1, hps.1]

theorem evt_conf_bounds (rln : ℚ → ℚ) (rpow : ℚ → ℚ → ℚ) (bars : List Bar)
    (probs : List ℚ) (tq band cur : ℚ) :
    ∀ lvl ∈ compute_evt_resistances rln rpow bars probs tq band cur,
      0 ≤ lvl.confidence ∧ lvl.confidence ≤ 1 := by
  intro lvl hlvl
  simp only [compute_evt_resistances] at hlvl
  split at hlvl
  · simp at hlvl
  · split at hlvl
    · simp at hlvl
    · split at hlvl
      · simp at hlvl
      · have hlvl2 := mem_sortOrd.mp hlvl
        split at hlvl2
        · simp only [evtFallbackLevel, List.mem_singleton] at hlvl2
          subst hlvl2
          exact rclamp_mem (by norm_num)
        · obtain ⟨p, hp, hf⟩ := List.mem_filterMap.mp hlvl2
          simp only [evtLoopLevels] at hf
          split_ifs at hf
          all_goals
            first
              | exact Option.noConfusion hf
              | (obtain rfl := hf
                 exact rclamp_mem (by norm_num))
              | (obtain rfl := Option.some.inj hf
                 exact rclamp_mem (by norm_num))
              | simp at hf

theorem mergeOne_nonneg (tol : ℚ) (lvl : Level) (hl : 0 ≤ lvl.confidence) :
    ∀ (acc : List Level), (∀ x ∈ acc, 0 ≤ x.confidence) →
      ∀ acc2, mergeOne tol lvl acc = some acc2 → ∀ x ∈ acc2, 0 ≤ x.confidence
  | [], _, acc2, h => by simp [mergeOne] at h
  | e :: rest, hacc, acc2, h => by
    simp only [mergeOne] at h
    by_cases hclose : |e.price - lvl.price| ≤ tol
    · rw [if_pos hclose] at h
      obtain rfl := Option.some.inj h
      intro x hx
      rcases List.mem_cons.mp hx with rfl | hx
      · by_cases htot : 0 < e.confidence + lvl.confidence
        · rw [if_pos htot]
          exact le_of_lt htot
        · rw [if_neg htot]
          exact hacc e (by simp)
      · exact hacc x (by simp [hx])
    · rw [if_neg hclose] at h
      cases hrec : mergeOne tol lvl rest with
      | none =>
        rw [hrec] at h
        simp at h
      | some tl =>
        rw [hrec] at h
        simp only [Option.map_some'] at h
        obtain rfl := Option.some.inj h
        intro x hx
        rcases List.mem_cons.mp hx with rfl | hx
        · exact hacc x (by simp)
        · exact mergeOne_nonneg tol lvl hl rest
            (fun y hy => hacc y (by simp [hy])) tl hrec x hx

theorem combine_fold_nonneg (tol sw : ℚ) (hsw : 0 ≤ sw) :
    ∀ (secondary acc : List Level),
      (∀ x ∈ acc, 0 ≤ x.confidence) → (∀ l ∈ secondary, 0 ≤ l.confidence) →
      ∀ x ∈ secondary.foldl (fun acc l0 =>
          let l := { l0 with confidence := l0.confidence * sw
                             performance := PerformanceStats.empty }
          match mergeOne tol l acc with
          | some acc1 => acc1
          | none => acc ++ [l]) acc, 0 ≤ x.confidence
  | [], acc, hacc, _, x, hx => hacc x hx
  | l0 :: srest, acc, hacc, hsec, x, hx => by
    rw [List.foldl_cons] at hx
    refine combine_fold_nonneg tol sw hsw srest _ ?_
      (fun l hl => hsec l (by simp [hl])) x hx
    intro y hy
    simp only at hy
    have hl0 : 0 ≤ l0.confidence * sw :=
      mul_nonneg (hsec l0 (by simp)) hsw
    rcases hrec : mergeOne tol
        { l0 with confidence := l0.confidence * sw
                  performance := PerformanceStats.empty } acc with _ | tl
    · rw [hrec] at hy
      rcases List.mem_append.mp hy with hy | hy
      · exact hacc y hy
      · simp only [List.mem_singleton] at hy
        subst hy
        exact hl0
    · rw [hrec] at hy
      exact mergeOne_nonneg tol _ hl0 acc hacc tl hrec y hy

/-- C1 (amended): confidences built by `build_levels` and
`compute_evt_resistances` always lie in `[0, 1]`; `combine_level_sets`
keeps confidences non-negative for non-negative inputs and weights, but
its merge step SUMS weighted confidences, so when two secondary levels
merge into the same combined level the result can exceed 1 (see the
counterexample), so only the lower bound survives for the combiner. -/
theorem confidence_bounds_amended :
    (∀ (peaks : List DensityPeak) (md cp ma bm : ℚ) (ml : ℕ),
      ∀ lvl ∈ build_levels peaks md cp ma bm ml,
        0 ≤ lvl.confidence ∧ lvl.confidence ≤ 1) ∧
    (∀ (rln : ℚ → ℚ) (rpow : ℚ → ℚ → ℚ) (bars : List Bar) (probs : List ℚ)
        (tq band cur : ℚ),
      ∀ lvl ∈ compute_evt_resistances rln rpow bars probs tq band cur,
        0 ≤ lvl.confidence ∧ lvl.confidence ≤ 1) ∧
    (∀ (primary secondary : List Level) (pw sw tol : ℚ),
      (∀ l ∈ primary, 0 ≤ l.confidence) →
      (∀ l ∈ secondary, 0 ≤ l.confidence) → 0 ≤ pw → 0 ≤ sw →
      ∀ lvl ∈ combine_level_sets primary secondary pw sw tol,
        0 ≤ lvl.confidence) := by
  refine ⟨build_levels_conf, evt_conf_bounds, ?_⟩
  intro primary secondary pw sw tol hp hs hpw hsw lvl hlvl
  simp only [combine_level_sets] at hlvl
  have hlvl2 := mem_sortOrd.mp hlvl
  refine combine_fold_nonneg tol sw hsw secondary _ ?_ hs lvl hlvl2
  intro x hx
  obtain ⟨l1, hl1, rfl⟩ := List.mem_map.mp hx
  exact mul_nonneg (hp l1 hl1) hpw

/-!
## Evaluation of the EVT extrapolator on the 50-bar ramp fixture
-/

theorem ramp_highs_eq : (rampBars 50).map (·.high) =
    (List.range 50).map (Nat.cast : ℕ → ℚ) := by
  unfold rampBars
  rw [List.map_map]
  rfl

theorem ramp_len : (rampBars 50).length = 50 := by
  unfold rampBars
  rw [List.length_map, List.length_range]

theorem evt_ramp_highs : evtSortedHighs (rampBars 50) =
    (List.range 50).map (Nat.cast : ℕ → ℚ) := by
  unfold evtSortedHighs
  rw [ramp_highs_eq]
  apply sortOrd_eq_self
  refine List.pairwise_map.mpr ?_
  refine (List.sorted_le_range 50).imp ?_
  intro a b hab
  exact decide_eq_true (by exact_mod_cast hab)

theorem evt_ramp_idx : evtThresholdIdx (rampBars 50).length (4 / 5) = 40 := by
  rw [ramp_len]
  unfold evtThresholdIdx
  have h1 : ((50 : ℕ) : ℚ) * (4 / 5) = ((40 : ℕ) : ℚ) := by
    push_cast
    norm_num
  rw [h1, Int.floor_natCast]
  decide

theorem evt_ramp_threshold : evtThreshold (rampBars 50) (4 / 5) = 40 := by
  unfold evtThreshold
  rw [evt_ramp_highs, evt_ramp_idx, List.getD_eq_getElem?_getD,
    List.getElem?_map, List.getElem?_range (by norm_num)]
  norm_num

theorem evt_ramp_maxhigh : evtMaxHigh (rampBars 50) (4 / 5) = 49 := by
  unfold evtMaxHigh
  rw [evt_ramp_highs, List.getLast?_map,
    (by decide : (List.range 50).getLast? = some 49)]
  norm_num

theorem evt_ramp_nu : (evtExceedances (rampBars 50) (4 / 5)).length = 9 := by
  unfold evtExceedances
  rw [evt_ramp_highs, evt_ramp_threshold, List.length_map, List.filter_map,
    List.length_map]
  have hpred : ∀ i ∈ List.range 50,
      ((fun v => decide ((40 : ℚ) < v)) ∘ (Nat.cast : ℕ → ℚ)) i =
        decide (40 < i) := by
    intro i _
    simp only [Function.comp_apply]
    apply decide_eq_decide.mpr
    exact_mod_cast Iff.rfl
  rw [List.filter_congr hpred]
  decide

/-- When the projection loop yields nothing (and the data guards pass),
`compute_evt_resistances` returns exactly the fallback level. -/
theorem evt_fallback_eq (rln : ℚ → ℚ) (rpow : ℚ → ℚ → ℚ) (bars : List Bar)
    (probs : List ℚ) (tq band cur : ℚ)
    (h50 : 50 ≤ bars.length) (hne : probs ≠ [])
    (hnu : 5 ≤ (evtExceedances bars tq).length)
    (hloop : evtLoopLevels rln rpow (evtThreshold bars tq) (evtMaxHigh bars tq)
        (((evtExceedances bars tq).length : ℚ) / (bars.length : ℚ))
        (evtShapeScale bars tq).1 (evtShapeScale bars tq).2 band cur probs = []) :
    compute_evt_resistances rln rpow bars probs tq band cur =
      evtFallbackLevel (evtMaxHigh bars tq) band cur probs := by
  have hlam : ¬ (((evtExceedances bars tq).length : ℚ) / (bars.length : ℚ) ≤ 0) := by
    rw [not_le]
    apply div_pos
    · exact_mod_cast (by omega : 0 < (evtExceedances bars tq).length)
    · exact_mod_cast (by omega : 0 < bars.length)
  simp only [compute_evt_resistances]
  rw [if_neg (by push_neg; exact ⟨by omega, hne⟩), if_neg (by omega),
    if_neg hlam, hloop, if_pos rfl]
  simp only [evtFallbackLevel]
  exact sortOrd_singleton _

/-- Concrete output of the EVT extrapolator on the 50-bar ramp with the
single (invalid) tail probability 2 and band 1/2. -/
theorem evt_ramp_out :
    compute_evt_resistances (fun _ => 0) (fun _ _ => 0) (rampBars 50) [2] (4 / 5)
        (1 / 2) 0 =
      [{ price := 50, density := 0, confidence := 1, confidence_band := 1 / 2
         level_type := LevelType.Resistance
         performance := PerformanceStats.empty, distance_from_last := 50 }] := by
  rw [evt_fallback_eq]
  · rw [evt_ramp_maxhigh]
    norm_num [evtFallbackLevel, rclamp, min_def, max_def, abs_eq_max_neg]
  · rw [ramp_len]
  · simp
  · rw [evt_ramp_nu]
    norm_num
  · norm_num [evtLoopLevels]

/-- Witness for the amended C1: a built level, an EVT level, and a merged
combiner level, each with its confidence in the guaranteed range. -/
theorem confidence_bounds_witness :
    (0 ≤ ((build_levels [peakOne] 2 50 1 1 5).getD 0 lvlHundred).confidence ∧
      ((build_levels [peakOne] 2 50 1 1 5).getD 0 lvlHundred).confidence ≤ 1) ∧
    (0 ≤ ((compute_evt_resistances (fun _ => 0) (fun _ _ => 0) (rampBars 50) [2]
          (4 / 5) (1 / 2) 0).getD 0 lvlHundred).confidence ∧
      ((compute_evt_resistances (fun _ => 0) (fun _ _ => 0) (rampBars 50) [2]
          (4 / 5) (1 / 2) 0).getD 0 lvlHundred).confidence ≤ 1) ∧
    0 ≤ ((combine_level_sets [lvlHundred] [lvlHundred] (7 / 10) (3 / 10)
        10).getD 0 lvlHundred).confidence := by
  have hbuild : build_levels [peakOne] 2 50 1 1 5 =
      [{ price := 100, density := 2, confidence := 1, confidence_band := 1
         level_type := LevelType.Resistance
         performance := PerformanceStats.empty, distance_from_last := 50 }] := by
    norm_num [build_levels, rclamp, sortOrd, insertOrd, peakOne, min_def,
      max_def, abs_eq_max_neg]
  have hcomb : combine_level_sets [lvlHundred] [lvlHundred] (7 / 10) (3 / 10) 10 =
      [{ price := 100, density := 0, confidence := 1, confidence_band := 1
         level_type := LevelType.Support
         performance := PerformanceStats.empty, distance_from_last := 0 }] := by
    norm_num [combine_level_sets, mergeOne, sortOrd, insertOrd, lvlHundred,
      PerformanceStats.empty, abs_eq_max_neg, max_def]
  refine ⟨?_, ?_, ?_⟩
  · refine confidence_bounds_amended.1 [peakOne] 2 50 1 1 5 _ ?_
    rw [hbuild]
    simp
  · refine confidence_bounds_amended.2.1 (fun _ => 0) (fun _ _ => 0) (rampBars 50)
      [2] (4 / 5) (1 / 2) 0 _ ?_
    rw [evt_ramp_out]
    simp
  · refine confidence_bounds_amended.2.2 [lvlHundred] [lvlHundred] (7 / 10)
      (3 / 10) 10 ?_ ?_ (by norm_num) (by norm_num) _ ?_
    · intro l hl
      simp only [List.mem_singleton] at hl
      subst hl
      norm_num [lvlHundred]
    · intro l hl
      simp only [List.mem_singleton] at hl
      subst hl
      norm_num [lvlHundred]
    · rw [hcomb]
      simp

/-- C1 counterexample: with input confidences in `[0, 1]` and the
production weights 0.7/0.3, merging TWO secondary levels into the same
combined level sums the weighted confidences to `0.7 + 0.3 + 0.3 = 1.3`,
so `combine_level_sets` can leave the unit interval. -/
theorem combine_confidence_counterexample :
    (combine_level_sets [lvlHundred] [lvlHundred, lvlHundred] (7 / 10) (3 / 10)
        10).map (·.confidence) = [13 / 10] ∧ ¬ ((13 / 10 : ℚ) ≤ 1) := by
  constructor
  · norm_num [combine_level_sets, mergeOne, sortOrd, insertOrd, lvlHundred,
      PerformanceStats.empty, abs_eq_max_neg, max_def]
  · norm_num

/-- C4 (amended): with at least 50 bars, a non-empty tail-probability
list, at least 5 exceedances, and no probability producing a valid
projected level, `compute_evt_resistances` returns exactly one fallback
level typed Resistance, priced `min(max_high + step, max_high + 5*step)`
with `step = max(confidence_band, 1)` — the claim's
`min(max_high + band, max_high + 5*band)` omits the floor of the band at
1 — or anchored to the current price when that price would be
non-forward, and with confidence equal to the FIRST requested probability
CLAMPED to `[0, 1]` (the claim omits the clamp). -/
theorem compute_evt_fallback_amended (rln : ℚ → ℚ) (rpow : ℚ → ℚ → ℚ)
    (bars : List Bar) (probs : List ℚ) (tq band cur : ℚ)
    (h50 : 50 ≤ bars.length) (hne : probs ≠ [])
    (hnu : 5 ≤ (evtExceedances bars tq).length)
    (hloop : evtLoopLevels rln rpow (evtThreshold bars tq) (evtMaxHigh bars tq)
        (((evtExceedances bars tq).length : ℚ) / (bars.length : ℚ))
        (evtShapeScale bars tq).1 (evtShapeScale bars tq).2 band cur probs = []) :
    compute_evt_resistances rln rpow bars probs tq band cur =
      evtFallbackLevel (evtMaxHigh bars tq) band cur probs ∧
    (evtFallbackLevel (evtMaxHigh bars tq) band cur probs).length = 1 ∧
    ∀ lvl ∈ evtFallbackLevel (evtMaxHigh bars tq) band cur probs,
      lvl.price =
        (if min (evtMaxHigh bars tq + max band 1)
            (evtMaxHigh bars tq + max band 1 * 5) ≤ cur then
          min (cur + max band 1) (evtMaxHigh bars tq + max band 1 * 5)
        else
          min (evtMaxHigh bars tq + max band 1)
            (evtMaxHigh bars tq + max band 1 * 5)) ∧
      lvl.confidence = rclamp ((probs.head?).getD (99 / 100)) 0 1 ∧
      lvl.level_type = LevelType.Resistance := by
  refine ⟨evt_fallback_eq rln rpow bars probs tq band cur h50 hne hnu hloop,
    by simp [evtFallbackLevel], ?_⟩
  intro lvl hlvl
  simp only [evtFallbackLevel, List.mem_singleton] at hlvl
  subst hlvl
  exact ⟨rfl, rfl, rfl⟩

/-- Witness for the amended C4 on the 50-bar ramp with the single
(invalid) tail probability 2. -/
theorem compute_evt_fallback_amended_witness :
    compute_evt_resistances (fun _ => 0) (fun _ _ => 0) (rampBars 50) [2] (4 / 5)
        (1 / 2) 0 =
      evtFallbackLevel (evtMaxHigh (rampBars 50) (4 / 5)) (1 / 2) 0 [2] :=
  (compute_evt_fallback_amended (fun _ => 0) (fun _ _ => 0) (rampBars 50) [2]
    (4 / 5) (1 / 2) 0 (by rw [ramp_len]) (by simp)
    (by rw [evt_ramp_nu]; norm_num) (by norm_num [evtLoopLevels])).1

/-- C4 counterexample: on the 50-bar ramp (max high 49) with
`confidence_band = 1/2` and tail probabilities `[2]`, the code's fallback
level is priced 50 with confidence 1, whereas the claim requires price
`min(49 + 1/2, 49 + 5*(1/2)) = 49.5` and confidence 2 (the first
requested probability). -/
theorem evt_fallback_counterexample :
    ((compute_evt_resistances (fun _ => 0) (fun _ _ => 0) (rampBars 50) [2]
        (4 / 5) (1 / 2) 0).map (fun l => (l.price, l.confidence)) =
      [(50, 1)]) ∧
    ¬ ((50 : ℚ) = min (49 + 1 / 2) (49 + 5 * (1 / 2)) ∧ (1 : ℚ) = 2) := by
  constructor
  · rw [evt_ramp_out]
    rfl
  · rintro ⟨-, h2⟩
    exact absurd h2 (by norm_num)

/-!
## C3: invariants of the swing scan (`detect_swings`)
-/

/-- When every retained last swing has an index below the new swing's,
`push_swing` appends. -/
theorem pushSwing_inv {swings : List SwingPoint} (s : SwingPoint) {n : ℕ}
    (h1 : swings ≠ [])
    (h2 : List.Chain' (fun a b : SwingPoint => a.index < b.index) swings)
    (h3 : ∀ y ∈ swings.getLast?, y.index = n)
    (hlt : n < s.index) :
    pushSwing swings s ≠ [] ∧
    (pushSwing swings s).head? = swings.head? ∧
    List.Chain' (fun a b : SwingPoint => a.index < b.index) (pushSwing swings s) ∧
    (pushSwing swings s).getLast? = some s := by
  have hed : pushSwing swings s = swings ++ [s] := by
    cases hl : swings.getLast? with
    | none => simp [pushSwing, hl]
    | some last =>
      have hne2 : ¬(last.index = s.index ∧ last.swing_type = s.swing_type) := by
        intro hc
        have hidx := h3 last (Option.mem_def.mpr hl)
        omega
      simp [pushSwing, hl, hne2]
  rw [hed]
  refine ⟨by simp, List.head?_append_of_ne_nil swings h1, ?_, List.getLast?_concat swings⟩
  refine List.chain'_append.mpr ⟨h2, List.chain'_singleton s, ?_⟩
  intro x hx y hy
  simp only [List.head?_cons, Option.mem_some_iff] at hy
  subst hy
  have hxi := h3 x hx
  show x.index < s.index
  omega

/-- One loop iteration either leaves the retained swings and last index
unchanged, or pushes a single swing of strictly larger index which also
becomes the new last index. -/
theorem swingStep_cases (bars : List Bar) (atr : List ℚ) (m d ia : ℚ)
    (st : SwingState) (idx : ℕ) :
    ((swingStep bars atr m d ia st idx).swings = st.swings ∧
      (swingStep bars atr m d ia st idx).lastIndex = st.lastIndex) ∨
    ∃ s : SwingPoint,
      (swingStep bars atr m d ia st idx).swings = pushSwing st.swings s ∧
      (swingStep bars atr m d ia st idx).lastIndex = s.index ∧
      st.lastIndex < s.index := by
  cases hb : bars.get? idx with
  | none => exact Or.inl ⟨by simp only [swingStep, hb], by simp only [swingStep, hb]⟩
  | some bar =>
    cases hlt : st.lastType with
    | none =>
      simp only [swingStep, hb, hlt]
      by_cases hch : st.candHighPrice ≤ bar.high <;>
        by_cases hcl : bar.low ≤ st.candLowPrice <;>
        simp only [hch, hcl, if_true, if_false] <;>
        split <;>
        first
          | (rename_i hg; exact Or.inr ⟨_, rfl, rfl, hg.2⟩)
          | exact Or.inl ⟨rfl, rfl⟩
    | some t =>
      cases t with
      | High =>
        simp only [swingStep, hb, hlt]
        by_cases hch : st.candHighPrice ≤ bar.high <;>
          by_cases hcl : bar.low ≤ st.candLowPrice <;>
          simp only [hch, hcl, if_true, if_false] <;>
          split <;>
          first
            | (rename_i hg; exact Or.inr ⟨_, rfl, rfl, hg.2⟩)
            | exact Or.inl ⟨rfl, rfl⟩
      | Low =>
        simp only [swingStep, hb, hlt]
        by_cases hch : st.candHighPrice ≤ bar.high <;>
          by_cases hcl : bar.low ≤ st.candLowPrice <;>
          simp only [hch, hcl, if_true, if_false] <;>
          split <;>
          first
            | (rename_i hg; exact Or.inr ⟨_, rfl, rfl, hg.2⟩)
            | exact Or.inl ⟨rfl, rfl⟩

/-- The loop invariant of `detect_swings` is preserved by one iteration:
non-emptiness, the head swing, strictly increasing indices, and the
last-index synchronisation. -/
theorem swingStep_inv (bars : List Bar) (atr : List ℚ) (m d ia : ℚ)
    (st : SwingState) (idx : ℕ)
    (h1 : st.swings ≠ [])
    (h2 : List.Chain' (fun a b : SwingPoint => a.index < b.index) st.swings)
    (h3 : ∀ y ∈ st.swings.getLast?, y.index = st.lastIndex) :
    (swingStep bars atr m d ia st idx).swings ≠ [] ∧
    (swingStep bars atr m d ia st idx).swings.head? = st.swings.head? ∧
    List.Chain' (fun a b : SwingPoint => a.index < b.index)
      (swingStep bars atr m d ia st idx).swings ∧
    ∀ y ∈ (swingStep bars atr m d ia st idx).swings.getLast?,
      y.index = (swingStep bars atr m d ia st idx).lastIndex := by
  rcases swingStep_cases bars atr m d ia st idx with ⟨hs, hi⟩ | ⟨s, hs, hi, hlt⟩
  · rw [hs, hi]
    exact ⟨h1, rfl, h2, h3⟩
  · rw [hs, hi]
    obtain ⟨p1, p2, p3, p4⟩ := pushSwing_inv s h1 h2 h3 hlt
    refine ⟨p1, p2, p3, fun y hy => ?_⟩
    rw [p4] at hy
    simp only [Option.mem_some_iff] at hy
    subst hy
    rfl

/-- The loop invariant holds after folding any index list. -/
theorem swingFold_inv (bars : List Bar) (atr : List ℚ) (m d ia : ℚ) :
    ∀ (idxs : List ℕ) (st : SwingState),
      st.swings ≠ [] →
      List.Chain' (fun a b : SwingPoint => a.index < b.index) st.swings →
      (∀ y ∈ st.swings.getLast?, y.index = st.lastIndex) →
      (idxs.foldl (swingStep bars atr m d ia) st).swings ≠ [] ∧
      (idxs.foldl (swingStep bars atr m d ia) st).swings.head? = st.swings.head? ∧
      List.Chain' (fun a b : SwingPoint => a.index < b.index)
        (idxs.foldl (swingStep bars atr m d ia) st).swings ∧
      ∀ y ∈ (idxs.foldl (swingStep bars atr m d ia) st).swings.getLast?,
        y.index = (idxs.foldl (swingStep bars atr m d ia) st).lastIndex := by
  intro idxs
  induction idxs with
  | nil => intro st h1 h2 h3; exact ⟨h1, rfl, h2, h3⟩
  | cons i t ih =>
    intro st h1 h2 h3
    obtain ⟨s1, s2, s3, s4⟩ := swingStep_inv bars atr m d ia st i h1 h2 h3
    obtain ⟨f1, f2, f3, f4⟩ := ih (swingStep bars atr m d ia st i) s1 s3 s4
    exact ⟨f1, f2.trans s2, f3, f4⟩

/-- `detect_swings` on a non-empty series, written with the named initial
state. -/
theorem detect_swings_cons (b0 : Bar) (rest : List Bar) (atr : List ℚ) (m d : ℚ) :
    detect_swings (b0 :: rest) atr m d =
      dedupRun (fun a b => decide (a.index = b.index ∧ a.swing_type = b.swing_type))
        (sortOrd (fun a b => decide (a.index ≤ b.index))
          ((List.range' 1 ((b0 :: rest).length - 1)).foldl
            (swingStep (b0 :: rest) atr m d ((atr.get? 0).getD 0))
            (initSwingState b0 ((atr.get? 0).getD 0))).swings) := rfl

/-- Core characterisation of `detect_swings` on a non-empty series: the
sort and deduplication are both identities on the scan output, so the
result is non-empty, starts with the initial Low swing, and has strictly
increasing indices. -/
theorem detect_swings_core (b0 : Bar) (rest : List Bar) (atr : List ℚ) (m d : ℚ) :
    detect_swings (b0 :: rest) atr m d ≠ [] ∧
    (detect_swings (b0 :: rest) atr m d).head? =
      some { index := 0, bar := b0, price := b0.low, swing_type := SwingType.Low
             atr := (atr.get? 0).getD 0 } ∧
    List.Chain' (fun a b : SwingPoint => a.index < b.index)
      (detect_swings (b0 :: rest) atr m d) := by
  obtain ⟨f1, f2, f3, f4⟩ := swingFold_inv (b0 :: rest) atr m d ((atr.get? 0).getD 0)
    (List.range' 1 ((b0 :: rest).length - 1)) (initSwingState b0 ((atr.get? 0).getD 0))
    (by simp [initSwingState])
    (by simp only [initSwingState]; exact List.chain'_singleton _)
    (by
      intro y hy
      simp only [initSwingState, List.getLast?_singleton, Option.mem_some_iff] at hy
      subst hy
      rfl)
  rw [detect_swings_cons]
  haveI : IsTrans SwingPoint (fun a b : SwingPoint => a.index < b.index) :=
    ⟨fun a b c hab hbc => Nat.lt_trans hab hbc⟩
  have hpw : List.Pairwise (fun a b : SwingPoint => a.index < b.index)
      ((List.range' 1 ((b0 :: rest).length - 1)).foldl
        (swingStep (b0 :: rest) atr m d ((atr.get? 0).getD 0))
        (initSwingState b0 ((atr.get? 0).getD 0))).swings :=
    List.chain'_iff_pairwise.mp f3
  have hle : List.Pairwise (fun a b : SwingPoint => decide (a.index ≤ b.index) = true)
      ((List.range' 1 ((b0 :: rest).length - 1)).foldl
        (swingStep (b0 :: rest) atr m d ((atr.get? 0).getD 0))
        (initSwingState b0 ((atr.get? 0).getD 0))).swings :=
    hpw.imp (fun h => decide_eq_true (Nat.le_of_lt h))
  rw [sortOrd_eq_self hle]
  rw [dedupRun_eq_self _ (f3.imp (fun {a b} h => by
    simp only [decide_eq_false_iff_not]
    rintro ⟨hci, -⟩
    omega))]
  exact ⟨f1, by rw [f2]; rfl, f3⟩

/-- On a non-empty series the swing detector returns at least one swing. -/
theorem detect_swings_ne_nil (bars : List Bar) (atr : List ℚ) (m d : ℚ)
    (hne : bars ≠ []) : detect_swings bars atr m d ≠ [] := by
  obtain ⟨b0, rest, rfl⟩ := List.exists_cons_of_ne_nil hne
  exact (detect_swings_core b0 rest atr m d).1

/-- **C3**: on every non-empty bar series, for any ATR series, multiplier,
and minimum swing distance, `detect_swings` returns a non-empty list whose
first element is the implicit Low swing at index 0 priced at the first
bar's low, whose indices strictly increase, and in which no two
consecutive swings share the same `(index, type)` pair. -/
theorem detect_swings_invariants (bars : List Bar) (atr : List ℚ) (m d : ℚ)
    (hne : bars ≠ []) :
    detect_swings bars atr m d ≠ [] ∧
    (detect_swings bars atr m d).head? =
      some { index := 0, bar := bars.head hne, price := (bars.head hne).low
             swing_type := SwingType.Low, atr := (atr.get? 0).getD 0 } ∧
    List.Chain' (fun a b : SwingPoint => a.index < b.index)
      (detect_swings bars atr m d) ∧
    List.Chain' (fun a b : SwingPoint =>
      ¬(a.index = b.index ∧ a.swing_type = b.swing_type))
      (detect_swings bars atr m d) := by
  obtain ⟨b0, rest, rfl⟩ := List.exists_cons_of_ne_nil hne
  obtain ⟨c1, c2, c3⟩ := detect_swings_core b0 rest atr m d
  exact ⟨c1, c2, c3, c3.imp (fun a b h hc => absurd hc.1 (Nat.ne_of_lt h))⟩

/-- Witness for C3: a single flat bar priced 0 with ATR 1. -/
theorem detect_swings_invariants_witness :
    ([flatBar 0] : List Bar) ≠ [] ∧
    (detect_swings [flatBar 0] [1] 1 1 ≠ [] ∧
     (detect_swings [flatBar 0] [1] 1 1).head? =
       some { index := 0, bar := flatBar 0, price := (flatBar 0).low
              swing_type := SwingType.Low, atr := (([1] : List ℚ).get? 0).getD 0 } ∧
     List.Chain' (fun a b : SwingPoint => a.index < b.index)
       (detect_swings [flatBar 0] [1] 1 1) ∧
     List.Chain' (fun a b : SwingPoint =>
       ¬(a.index = b.index ∧ a.swing_type = b.swing_type))
       (detect_swings [flatBar 0] [1] 1 1)) :=
  ⟨List.cons_ne_nil _ _,
   detect_swings_invariants [flatBar 0] [1] 1 1 (List.cons_ne_nil _ _)⟩

/-!
## C2: the adaptive relaxation search of `run_single_analysis`
-/

/-- Every element is bounded by the `foldr max 0` of its list. -/
theorem le_foldr_max : ∀ (l : List ℕ), ∀ x ∈ l, x ≤ l.foldr max 0
  | [], x, hx => by simp at hx
  | a :: t, x, hx => by
    rcases List.mem_cons.mp hx with rfl | hx
    · simp only [List.foldr_cons]
      exact le_max_left _ _
    · simp only [List.foldr_cons]
      exact le_trans (le_foldr_max t x hx) (le_max_right _ _)

/-- If some combination satisfies the requirement, the search loop stops
at the first such combination and returns it satisfied. -/
theorem searchLoop_mem_found (bars : List Bar) (atr : List ℚ) (req : ℕ) :
    ∀ (cs : List (ℚ × ℚ)) (best : List SwingPoint × ℚ × ℚ) (c : ℚ × ℚ),
      cs.find? (fun x => decide (req ≤ detectCount bars atr x)) = some c →
      searchLoop bars atr req cs best =
        (true, (detect_swings bars atr c.2 c.1, c.2, c.1)) := by
  intro cs
  induction cs with
  | nil => intro best c h; simp at h
  | cons c0 t ih =>
    intro best c h
    by_cases hc : req ≤ (detect_swings bars atr c0.2 c0.1).length
    · rw [List.find?_cons_of_pos _ (by simpa [detectCount] using hc)] at h
      obtain rfl := Option.some.inj h
      simp only [searchLoop]
      rw [if_pos hc]
    · rw [List.find?_cons_of_neg _ (by simpa [detectCount] using hc)] at h
      simp only [searchLoop]
      rw [if_neg hc]
      exact ih _ c h

/-- If no combination satisfies the requirement, the search loop returns
unsatisfied with the folded best attempt. -/
theorem searchLoop_not_found (bars : List Bar) (atr : List ℚ) (req : ℕ) :
    ∀ (cs : List (ℚ × ℚ)) (best : List SwingPoint × ℚ × ℚ),
      cs.find? (fun x => decide (req ≤ detectCount bars atr x)) = none →
      searchLoop bars atr req cs best = (false, cs.foldl (bestStep bars atr) best) := by
  intro cs
  induction cs with
  | nil => intro best _; simp [searchLoop]
  | cons c0 t ih =>
    intro best h
    by_cases hc : req ≤ (detect_swings bars atr c0.2 c0.1).length
    · rw [List.find?_cons_of_pos _ (by simpa [detectCount] using hc)] at h
      exact Option.noConfusion h
    · rw [List.find?_cons_of_neg _ (by simpa [detectCount] using hc)] at h
      simp only [searchLoop]
      rw [if_neg hc]
      rw [ih _ h]
      rfl

/-- The best attempt's swing count is the maximum of the initial count and
all candidate counts. -/
theorem bestFold_length (bars : List Bar) (atr : List ℚ) :
    ∀ (cs : List (ℚ × ℚ)) (best : List SwingPoint × ℚ × ℚ),
      (cs.foldl (bestStep bars atr) best).1.length =
        max best.1.length ((cs.map (detectCount bars atr)).foldr max 0) := by
  intro cs
  induction cs with
  | nil => intro best; simp
  | cons c0 t ih =>
    intro best
    simp only [List.foldl_cons, List.map_cons, List.foldr_cons]
    rw [ih (bestStep bars atr best c0)]
    simp only [bestStep]
    by_cases hlt : best.1.length < detectCount bars atr c0
    · rw [if_pos hlt]
      have e : ((detect_swings bars atr c0.2 c0.1, c0.2, c0.1) :
          List SwingPoint × ℚ × ℚ).1.length = detectCount bars atr c0 := rfl
      rw [e]
      omega
    · rw [if_neg hlt]
      omega

/-- The folded best attempt is either the initial attempt or the triple of
some tried combination. -/
theorem bestFold_provenance (bars : List Bar) (atr : List ℚ) :
    ∀ (cs : List (ℚ × ℚ)) (best : List SwingPoint × ℚ × ℚ),
      cs.foldl (bestStep bars atr) best = best ∨
      ∃ c ∈ cs, cs.foldl (bestStep bars atr) best =
        (detect_swings bars atr c.2 c.1, c.2, c.1) := by
  intro cs
  induction cs with
  | nil => intro best; exact Or.inl rfl
  | cons c0 t ih =>
    intro best
    by_cases hlt : best.1.length < detectCount bars atr c0
    · have hstep : bestStep bars atr best c0 =
          (detect_swings bars atr c0.2 c0.1, c0.2, c0.1) := by
        simp [bestStep, hlt]
      rcases ih (bestStep bars atr best c0) with h | ⟨c, hc, h⟩
      · refine Or.inr ⟨c0, List.mem_cons_self _ _, ?_⟩
        rw [List.foldl_cons, h]
        exact hstep
      · exact Or.inr ⟨c, List.mem_cons_of_mem _ hc, by rw [List.foldl_cons]; exact h⟩
    · have hstep : bestStep bars atr best c0 = best := by
        simp [bestStep, hlt]
      rcases ih best with h | ⟨c, hc, h⟩
      · refine Or.inl ?_
        rw [List.foldl_cons, hstep]
        exact h
      · exact Or.inr ⟨c, List.mem_cons_of_mem _ hc,
          by rw [List.foldl_cons, hstep]; exact h⟩

/-- **C2**: for a window passing the bar-count guard (and at least one
bar), the adaptive search (i) returns the first combination — in the
nested descending scan order of `orderedCombos` — whose swing count
reaches `max dbscan_min_points 8`, when one exists; (ii) otherwise falls
back to a tried combination attaining the maximal swing count over all
combinations; and (iii) fails exactly when even the best attempt yields
fewer swings than `dbscan_min_points`. -/
theorem adaptive_search_spec (bars : List Bar) (atr : List ℚ) (cfg : SearchConfig)
    (hlen : cfg.dbscan_min_points ≤ bars.length) (hne : bars ≠ []) :
    (∀ c : ℚ × ℚ,
      (orderedCombos cfg).find?
          (fun x => decide (max cfg.dbscan_min_points 8 ≤ detectCount bars atr x)) =
        some c →
      adaptiveSwingSearch bars atr cfg =
        some (detect_swings bars atr c.2 c.1, c.2, c.1)) ∧
    ((orderedCombos cfg).find?
        (fun x => decide (max cfg.dbscan_min_points 8 ≤ detectCount bars atr x)) =
      none →
      ∀ out, adaptiveSwingSearch bars atr cfg = some out →
        ∃ c ∈ orderedCombos cfg,
          out = (detect_swings bars atr c.2 c.1, c.2, c.1) ∧
          detectCount bars atr c = maxSwingCount bars atr cfg) ∧
    (adaptiveSwingSearch bars atr cfg = none ↔
      maxSwingCount bars atr cfg < cfg.dbscan_min_points) := by
  have hguard : ¬ bars.length < cfg.dbscan_min_points := not_lt.mpr hlen
  cases hfind : (orderedCombos cfg).find?
      (fun x => decide (max cfg.dbscan_min_points 8 ≤ detectCount bars atr x)) with
  | some c =>
    have hp : max cfg.dbscan_min_points 8 ≤ detectCount bars atr c := by
      simpa using List.find?_some hfind
    have hres : adaptiveSwingSearch bars atr cfg =
        some (detect_swings bars atr c.2 c.1, c.2, c.1) := by
      have hloop := searchLoop_mem_found bars atr (max cfg.dbscan_min_points 8)
        (orderedCombos cfg) ([], cfg.atr_multiplier, cfg.min_swing_distance) c hfind
      have hge : cfg.dbscan_min_points ≤ (detect_swings bars atr c.2 c.1).length :=
        le_trans (le_max_left _ _) hp
      simp only [adaptiveSwingSearch]
      rw [if_neg hguard, hloop]
      dsimp only
      rw [if_neg (not_lt.mpr hge)]
    have hmax : detectCount bars atr c ≤ maxSwingCount bars atr cfg :=
      le_foldr_max _ _ (List.mem_map_of_mem _ (List.mem_of_find?_eq_some hfind))
    refine ⟨fun c2 h2 => ?_, fun h2 => ?_, ?_⟩
    · obtain rfl := Option.some.inj h2
      exact hres
    · exact Option.noConfusion h2
    · exact iff_of_false (by rw [hres]; simp) (by omega)
  | none =>
    have hloop := searchLoop_not_found bars atr (max cfg.dbscan_min_points 8)
      (orderedCombos cfg) ([], cfg.atr_multiplier, cfg.min_swing_distance) hfind
    have hres : adaptiveSwingSearch bars atr cfg =
        if (bestFold bars atr cfg).1.length < cfg.dbscan_min_points then none
        else some (bestFold bars atr cfg) := by
      simp only [adaptiveSwingSearch]
      rw [if_neg hguard, hloop]
      rfl
    have hlenF : (bestFold bars atr cfg).1.length = maxSwingCount bars atr cfg := by
      have h := bestFold_length bars atr (orderedCombos cfg)
        ([], cfg.atr_multiplier, cfg.min_swing_distance)
      simpa [bestFold, maxSwingCount] using h
    refine ⟨fun c2 h2 => ?_, fun _ out hout => ?_, ?_⟩
    · exact Option.noConfusion h2
    · rw [hres] at hout
      by_cases hcut : (bestFold bars atr cfg).1.length < cfg.dbscan_min_points
      · rw [if_pos hcut] at hout
        exact Option.noConfusion hout
      · rw [if_neg hcut] at hout
        obtain rfl : bestFold bars atr cfg = out := Option.some.inj hout
        rcases bestFold_provenance bars atr (orderedCombos cfg)
            ([], cfg.atr_multiplier, cfg.min_swing_distance) with hprov | ⟨c, hc, hprov⟩
        · exfalso
          obtain ⟨c0, hc0⟩ := List.exists_mem_of_ne_nil (orderedCombos cfg)
            (by simp [orderedCombos, distanceScales, multiplierScales])
          have h1 : 0 < detectCount bars atr c0 :=
            List.length_pos.mpr (detect_swings_ne_nil bars atr c0.2 c0.1 hne)
          have h2m : detectCount bars atr c0 ≤ maxSwingCount bars atr cfg :=
            le_foldr_max _ _ (List.mem_map_of_mem _ hc0)
          have h0 : (bestFold bars atr cfg).1.length = 0 := by
            have hbf : bestFold bars atr cfg =
                ([], cfg.atr_multiplier, cfg.min_swing_distance) := hprov
            rw [hbf]
            rfl
          omega
        · refine ⟨c, hc, hprov, ?_⟩
          have e1 : (bestFold bars atr cfg).1.length = detectCount bars atr c := by
            have hbf : bestFold bars atr cfg =
                (detect_swings bars atr c.2 c.1, c.2, c.1) := hprov
            rw [hbf]
            rfl
          omega
    · rw [hres]
      by_cases hcut : (bestFold bars atr cfg).1.length < cfg.dbscan_min_points
      · rw [if_pos hcut]
        exact iff_of_true rfl (by omega)
      · rw [if_neg hcut]
        exact iff_of_false (by simp) (by omega)

/-- Witness for C2: a single flat bar, unit configuration with minimum
cluster size 1; the search fails exactly when the best attempt is below
the minimum. -/
theorem adaptive_search_spec_witness :
    adaptiveSwingSearch [flatBar 0] [1] cfgUnit = none ↔
      maxSwingCount [flatBar 0] [1] cfgUnit < cfgUnit.dbscan_min_points :=
  (adaptive_search_spec [flatBar 0] [1] cfgUnit (by decide) (by simp)).2.2
